import Mathlib

/-!
Verification development for the beam-search decoding engine of
`keras_nlp/samplers/beam_sampler.py` (class `BeamSampler`).

The engine is embedded shallowly: tensors with a leading flattened
`batch * num_beams` axis become lists of rows, token ids are integers and
scores live in the ordered score type below.  The backend tensor operations used by the engine
(`ops.repeat`, `ops.reshape`, `ops.top_k`, `ops.argmax`, `ops.argsort`,
`ops.take_along_axis`, `ops.slice_update`, `ops.where`) are modelled by
small executable list functions with the same semantics, including the
invalid-argument failures of `repeat` and `reshape`.  The probability
transform `Sampler.compute_probabilities` and the elementwise `ops.log`
are kept as parameters (`probsOf`, `logFn`): the engine only composes and
compares the scores they produce.
-/

set_option maxHeartbeats 1000000
set_option linter.unusedVariables false

namespace BeamSampler

/-- The score type of the shallow embedding.  The engine treats the values
produced by the probability transform and the elementwise log as opaque
scores: it only adds them, negates them and compares them, never divides.
Any linear-ordered abelian group therefore models the float scores of the
source faithfully for the properties proved here; the integers keep every
concrete computation kernel-evaluable. -/
abbrev Score := ℤ

/-- Equality of decode outcomes is decidable, so concrete decode runs can
be checked by evaluation. -/
instance {ε α : Type} [DecidableEq ε] [DecidableEq α] :
    DecidableEq (Except ε α) := fun x y =>
  match x, y with
  | Except.error a, Except.error b =>
    if h : a = b then Decidable.isTrue (by rw [h])
    else Decidable.isFalse (fun hc => by cases hc; exact h rfl)
  | Except.ok a, Except.ok b =>
    if h : a = b then Decidable.isTrue (by rw [h])
    else Decidable.isFalse (fun hc => by cases hc; exact h rfl)
  | Except.error a, Except.ok b => Decidable.isFalse (fun hc => by cases hc)
  | Except.ok a, Except.error b => Decidable.isFalse (fun hc => by cases hc)

/-- Splits a flat list into `b` consecutive chunks of `n` elements each.
Models `ops.reshape` that splits the leading `batch * num_beams` axis into
`(batch, num_beams)` (the `unflatten_beams` helper of the source). -/
def chunksFuel {α : Type} : ℕ → ℕ → List α → List (List α)
  | 0, _, _ => []
  | b + 1, n, l => l.take n :: chunksFuel b n (l.drop n)

/-- Models `ops.repeat(x, k, axis=0)` (the `create_beams` helper of the
source): every leading-axis element is repeated `k` times consecutively.
A negative repeat count is an invalid argument in the backend op. -/
def opsRepeat {α : Type} (k : ℤ) (x : List α) : Except String (List α) :=
  if k < 0 then Except.error "invalid-argument: repeats must be non-negative"
  else Except.ok ((x.map (List.replicate k.toNat)).flatten)

/-- Models `ops.reshape` of a two-dimensional value to a one-dimensional
target shape (the `flatten_beams` helper of the source applied to the
initial log-probabilities): fails unless the element count matches. -/
def reshapeFlat (target : ℤ) (x : List (List Score)) : Except String (List Score) :=
  if (x.flatten.length : ℤ) = target then Except.ok x.flatten
  else Except.error "invalid-argument: reshape element count mismatch"

/-- Removes the first pair with maximal second component from a list of
(position, score) pairs.  This is the selection step used to model
`ops.top_k`: ties are resolved toward the smaller position, as in the
backend op. -/
def extractMax : List (ℕ × Score) → Option ((ℕ × Score) × List (ℕ × Score))
  | [] => none
  | p :: rest =>
    match extractMax rest with
    | none => some (p, [])
    | some (q, rest2) => if p.2 < q.2 then some (q, p :: rest2) else some (p, rest)

/-- Models `ops.top_k(values, k)` on one row, presented on (position, score)
pairs: the `k` pairs with the largest scores, in descending score order,
ties resolved toward the smaller position. -/
def topKPairs : ℕ → List (ℕ × Score) → List (ℕ × Score)
  | 0, _ => []
  | k + 1, l =>
    match extractMax l with
    | none => []
    | some (p, rest) => p :: topKPairs k rest

/-- Models `ops.argmax` over one row: the first position attaining the
maximum value (0 on an empty row). -/
def argmaxIdx (xs : List Score) : ℕ :=
  match extractMax xs.enum with
  | none => 0
  | some (p, _) => p.1

/-- Models `ops.argsort` over one row (ascending, stable): a stable
ascending sort of the positions by value, computed as a full descending
selection over the negated values. -/
def opsArgsort (xs : List Score) : List ℕ :=
  (topKPairs xs.length ((xs.map fun q => -q).enum)).map Prod.fst

/-- Models the body's `gather_beams` helper: unflatten the beam axis, pick
row `beamIdx[b][j]` inside every batch chunk (`ops.take_along_axis` on
axis 1), and flatten back. -/
def gatherRows (batch nb : ℕ) (beamIdx : List (List ℕ)) (x : List (List ℤ)) :
    List (List ℤ) :=
  (((chunksFuel batch nb x).zip beamIdx).map fun ci =>
    ci.2.map fun j => ci.1.getD j []).flatten

/-- Models lines 196-202 of the source: `ops.where(mask[:, index],
prompt[:, index], next_token)` followed by `ops.slice_update(prompt,
[0, index], ...)` — positions whose mask is true keep the (gathered)
prompt token, the rest receive the selected candidate token, and the
resulting column is written at `index`. -/
def writeColumn (index : ℕ) (mask : List (List Bool)) (prompt : List (List ℤ))
    (tok : List ℕ) : List (List ℤ) :=
  (prompt.zip (mask.zip tok)).map fun rmt =>
    rmt.1.set index
      (if rmt.2.1.getD index false then rmt.1.getD index 0 else (rmt.2.2 : ℤ))

/-- The tuple of loop variables of the decode loop: the flattened prompt
buffer, the (possibly absent) cache payload, the current position and the
per-beam cumulative log-probabilities. -/
structure LoopState (γ : Type) where
  prompt : List (List ℤ)
  cache : Option γ
  index : ℕ
  logProbs : List Score

/-- Modelled from the spec: `Sampler.run_loop` (defined in the base class
`Sampler`, which is not among the sources here) iterates `body` while
`cond` holds, for at most `maximumIterations` steps; the second component
of the result counts the body invocations actually performed. -/
def runLoop {σ : Type} (cond : σ → Bool) (body : σ → σ) :
    ℕ → σ → σ × ℕ
  | 0, s => (s, 0)
  | n + 1, s =>
    if cond s then
      let r := runLoop cond body n (body s)
      (r.1, r.2 + 1)
    else (s, 0)

/-- Models the loop condition `cond` (lines 151-157 of the source): with no
end token configured, always continue (up to the iteration bound);
otherwise continue until every row (every beam of every batch element)
contains the end token at a position whose mask is false. -/
def decodeCond {γ : Type} (endTokenId : Option ℤ) (mask : List (List Bool))
    (s : LoopState γ) : Bool :=
  match endTokenId with
  | none => true
  | some e =>
    !((s.prompt.zip mask).all fun rm =>
      (rm.1.zip rm.2).any fun tm => decide (tm.1 = e) && !tm.2)

/-- Models lines 163-168 of the source: per-token log-probabilities
`logFn` applied to `probsOf` of each logits row, plus the running per-beam
log-probability, reshaped per batch element into one flattened candidate
vector of size `num_beams * vocab_size`. -/
def candidateRows (probsOf : List Score → List Score) (logFn : Score → Score)
    (batch nb : ℕ) (logits : List (List Score)) (logProbs : List Score) :
    List (List Score) :=
  let probs := logits.map probsOf
  let nlp := (probs.zip logProbs).map fun pr => pr.1.map fun q => logFn q + pr.2
  (chunksFuel batch nb nlp).map List.flatten

/-- Models lines 170-173 of the source: the per-batch top-k selection over
the flattened candidate vectors, keeping (position, score) pairs. -/
def selectedPairs (probsOf : List Score → List Score) (logFn : Score → Score)
    (batch nb : ℕ) (logits : List (List Score)) (logProbs : List Score) :
    List (List (ℕ × Score)) :=
  (candidateRows probsOf logFn batch nb logits logProbs).map fun row =>
    topKPairs nb row.enum

/-- Models the loop body `body` (lines 159-204 of the source): one decode
step.  `probsOf` stands for `Sampler.compute_probabilities` applied to one
logits row and `logFn` for the elementwise `ops.log`; `next` is the step
oracle, whose auxiliary second output is discarded exactly as in the
source (`logits, _, cache = next(prompt, cache, index)`). -/
def decodeBody {γ A : Type} (probsOf : List Score → List Score) (logFn : Score → Score)
    (next : List (List ℤ) → Option γ → ℕ → List (List Score) × A × Option γ)
    (gatherCache : List (List ℕ) → γ → γ) (hasCache : Bool)
    (batch nb : ℕ) (mask : List (List Bool)) (s : LoopState γ) : LoopState γ :=
  let out := next s.prompt s.cache s.index
  let logits := out.1
  let cache := out.2.2
  let vocab := (logits.headD []).length
  let sel := selectedPairs probsOf logFn batch nb logits s.logProbs
  let beamIdx := sel.map fun l => l.map fun p => p.1 / vocab
  let nextTok := (sel.map fun l => l.map fun p => p.1 % vocab).flatten
  let newLogProbs := (sel.map fun l => l.map fun p => p.2).flatten
  let prompt2 := gatherRows batch nb beamIdx s.prompt
  let cache2 := if hasCache then cache.map (gatherCache beamIdx) else cache
  { prompt := writeColumn s.index mask prompt2 nextTok
    cache := cache2
    index := s.index + 1
    logProbs := newLogProbs }

/-- Models line 146-148 of the source: the single initial row
`[0.0] + [-1e9] * (num_beams - 1)` of beam log-probabilities (a negative
`num_beams - 1` yields an empty Python list). -/
def initLogProbsRow (numBeams : ℤ) : List Score :=
  0 :: List.replicate (numBeams - 1).toNat (-1000000000)

/-- The decode loop of `BeamSampler.__call__` (lines 206-211 of the
source): `run_loop` applied to `cond` and `body` with
`maximum_iterations = max_length - index`. -/
def beamLoop {γ A : Type} (probsOf : List Score → List Score) (logFn : Score → Score)
    (next : List (List ℤ) → Option γ → ℕ → List (List Score) × A × Option γ)
    (gatherCache : List (List ℕ) → γ → γ) (hasCache : Bool)
    (batch nb : ℕ) (mask : List (List Bool)) (endTokenId : Option ℤ)
    (s0 : LoopState γ) (maxIter : ℕ) : LoopState γ × ℕ :=
  runLoop (decodeCond endTokenId mask)
    (decodeBody probsOf logFn next gatherCache hasCache batch nb mask)
    maxIter s0

/-- The result of one decode call: the top beam per batch element, or all
beams together with their scores. -/
inductive DecodeOutput where
  | single (seqs : List (List ℤ))
  | all (seqs : List (List (List ℤ))) (scores : List (List Score))
deriving DecidableEq

/-- Models lines 206-233 of the source: run the decode loop, unflatten the
beam axis (`all_prompts`, `all_log_probs`), then either sort all beams per
batch element by descending log-probability (`ops.argsort` on the negated
scores, lines 216-228) or keep only the top beam per batch element
(`ops.argmax`, lines 230-233). -/
def decodeResult {γ A : Type} (returnAllBeams : Bool)
    (probsOf : List Score → List Score) (logFn : Score → Score)
    (next : List (List ℤ) → Option γ → ℕ → List (List Score) × A × Option γ)
    (gatherCache : List (List ℕ) → γ → γ) (hasCache : Bool)
    (batch nb : ℕ) (mask2 : List (List Bool)) (endTokenId : Option ℤ)
    (s0 : LoopState γ) (maxIter : ℕ) : DecodeOutput :=
  let final := (beamLoop probsOf logFn next gatherCache hasCache batch nb
    mask2 endTokenId s0 maxIter).1
  let allPrompts := chunksFuel batch nb final.prompt
  let allLogProbs := chunksFuel batch nb final.logProbs
  if returnAllBeams then
    let sortedIdx := allLogProbs.map fun row => opsArgsort (row.map fun q => -q)
    let sortedLogProbs := (allLogProbs.zip sortedIdx).map fun ri =>
      ri.2.map fun i => ri.1.getD i 0
    let sortedPrompts := (allPrompts.zip sortedIdx).map fun pi =>
      pi.2.map fun i => pi.1.getD i []
    DecodeOutput.all sortedPrompts sortedLogProbs
  else
    let topBeams := allLogProbs.map argmaxIdx
    DecodeOutput.single
      ((allPrompts.zip topBeams).map fun pb => pb.1.getD pb.2 [])

/-- Models `BeamSampler.__call__` (lines 107-233 of the source).  The
caller-facing arguments mirror the Python signature: `numBeams` and
`returnAllBeams` come from the constructor, `next`, `prompt`, `cache`,
`index`, `mask`, `endTokenId` and `hiddenStates` are the call arguments
(`hiddenStates` is accepted and never read, as in the source).  `repCache`
and `gatherCache` are the two structure-mapped operations applied to the
opaque cache payload. -/
def call {γ A K : Type} (numBeams : ℤ) (returnAllBeams : Bool)
    (probsOf : List Score → List Score) (logFn : Score → Score)
    (next : List (List ℤ) → Option γ → ℕ → List (List Score) × A × Option γ)
    (repCache : γ → γ) (gatherCache : List (List ℕ) → γ → γ)
    (prompt : List (List ℤ)) (cache : Option γ) (index : ℕ)
    (mask : Option (List (List Bool))) (endTokenId : Option ℤ)
    (hiddenStates : K) : Except String DecodeOutput := do
  let batch := prompt.length
  let maxLength := (prompt.headD []).length
  let mask0 := match mask with
    | none => prompt.map fun row => row.map fun _ => false
    | some m => m
  let hasCache := cache.isSome
  let prompt2 ← opsRepeat numBeams prompt
  let mask2 ← opsRepeat numBeams mask0
  let cache2 := cache.map repCache
  let lp ← reshapeFlat ((batch : ℤ) * numBeams)
    (List.replicate batch (initLogProbsRow numBeams))
  let nb := numBeams.toNat
  return decodeResult returnAllBeams probsOf logFn next gatherCache hasCache
    batch nb mask2 endTokenId ⟨prompt2, cache2, index, lp⟩
    (maxLength - index)

/-! ### Access lemmas for the tensor-operation models -/

lemma getD_take {α : Type} (l : List α) (n m : ℕ) (d : α) (h : m < n) :
    (l.take n).getD m d = l.getD m d := by
  simp [List.getD_eq_getElem?_getD, List.getElem?_take, h]

lemma getD_drop {α : Type} (l : List α) (n m : ℕ) (d : α) :
    (l.drop n).getD m d = l.getD (n + m) d := by
  simp [List.getD_eq_getElem?_getD, List.getElem?_drop]

lemma length_chunksFuel {α : Type} (b n : ℕ) (l : List α) :
    (chunksFuel b n l).length = b := by
  induction b generalizing l with
  | zero => simp [chunksFuel]
  | succ b ih => simp [chunksFuel, ih]

lemma getD_chunksFuel {α : Type} (b n b0 : ℕ) (l : List α) (hb : b0 < b) :
    (chunksFuel b n l).getD b0 [] = (l.drop (b0 * n)).take n := by
  induction b generalizing l b0 with
  | zero => omega
  | succ b ih =>
    cases b0 with
    | zero => simp [chunksFuel]
    | succ b0 =>
      have hb0 : b0 < b := by omega
      simp only [chunksFuel, List.getD_cons_succ, ih b0 (l.drop n) hb0,
        List.drop_drop]
      have : n + b0 * n = (b0 + 1) * n := by ring
      rw [this]

lemma getD_chunksFuel_getD {α : Type} (b n b0 j : ℕ) (l : List α) (d : α)
    (hb : b0 < b) (hj : j < n) :
    ((chunksFuel b n l).getD b0 []).getD j d = l.getD (b0 * n + j) d := by
  rw [getD_chunksFuel b n b0 l hb, getD_take _ _ _ _ hj, getD_drop]

lemma length_getD_chunksFuel {α : Type} (b n b0 : ℕ) (l : List α)
    (hb : b0 < b) (hlen : b * n ≤ l.length) :
    ((chunksFuel b n l).getD b0 []).length = n := by
  rw [getD_chunksFuel b n b0 l hb]
  simp only [List.length_take, List.length_drop]
  have : b0 * n + n ≤ b * n := by nlinarith
  omega

lemma mem_chunksFuel {α : Type} {b n : ℕ} {l : List α} {row : List α}
    (h : row ∈ chunksFuel b n l) :
    ∃ b0, b0 < b ∧ row = (l.drop (b0 * n)).take n := by
  induction b generalizing l with
  | zero => simp [chunksFuel] at h
  | succ b ih =>
    simp only [chunksFuel, List.mem_cons] at h
    rcases h with h | h
    · exact ⟨0, by omega, by simpa using h⟩
    · obtain ⟨b0, hb0, hrow⟩ := ih h
      refine ⟨b0 + 1, by omega, ?_⟩
      rw [hrow, List.drop_drop]
      have : n + b0 * n = (b0 + 1) * n := by ring
      rw [this]

lemma length_flatten_uniform {α : Type} (L : List (List α)) (w : ℕ)
    (hL : ∀ row ∈ L, row.length = w) : L.flatten.length = L.length * w := by
  induction L with
  | nil => simp
  | cons row rest ih =>
    have hrow := hL row (by simp)
    have hrest : ∀ r ∈ rest, r.length = w := fun r hr => hL r (by simp [hr])
    simp [List.flatten_cons, hrow, ih hrest, Nat.succ_mul, Nat.add_comm]

lemma getD_flatten_uniform {α : Type} (d : α) (L : List (List α)) (w : ℕ)
    (hL : ∀ row ∈ L, row.length = w) (r : ℕ) (hr : r < L.length * w) :
    L.flatten.getD r d = (L.getD (r / w) []).getD (r % w) d := by
  induction L generalizing r with
  | nil => simp at hr
  | cons row rest ih =>
    have hw : 0 < w := by
      rcases Nat.eq_zero_or_pos w with h | h
      · subst h; simp at hr
      · exact h
    have hrow := hL row (by simp)
    have hrest : ∀ q ∈ rest, q.length = w := fun q hq => hL q (by simp [hq])
    by_cases hcase : r < w
    · have hdiv : r / w = 0 := Nat.div_eq_of_lt hcase
      have hmod : r % w = r := Nat.mod_eq_of_lt hcase
      rw [List.flatten_cons, List.getD_eq_getElem?_getD, List.getElem?_append_left
        (by omega : r < row.length), hdiv, hmod]
      simp [List.getD_eq_getElem?_getD]
    · obtain ⟨x, rfl⟩ : ∃ x, r = w + x :=
        ⟨r - w, by omega⟩
      have hx : x < rest.length * w := by
        simp only [List.length_cons] at hr
        nlinarith
      have hdiv : (w + x) / w = x / w + 1 := by
        rw [Nat.add_comm w x, Nat.add_div_right _ hw]
      have hmod : (w + x) % w = x % w := by
        rw [Nat.add_comm w x, Nat.add_mod_right]
      rw [List.flatten_cons, List.getD_eq_getElem?_getD, List.getElem?_append_right
        (by omega : row.length ≤ w + x), hrow]
      have : w + x - w = x := by omega
      rw [this, hdiv, hmod, List.getD_cons_succ, ← List.getD_eq_getElem?_getD,
        ih hrest x hx]

lemma length_repeatFlat {α : Type} (nb : ℕ) (x : List α) :
    ((x.map (List.replicate nb)).flatten).length = x.length * nb := by
  rw [length_flatten_uniform _ nb (by simp), List.length_map]

lemma getD_repeatFlat {α : Type} (d : α) (nb : ℕ) (x : List α) (r : ℕ)
    (hr : r < x.length * nb) :
    ((x.map (List.replicate nb)).flatten).getD r d = x.getD (r / nb) d := by
  have hnb : 0 < nb := by
    rcases Nat.eq_zero_or_pos nb with h | h
    · subst h; simp at hr
    · exact h
  have hdivlt : r / nb < x.length :=
    Nat.div_lt_of_lt_mul (Nat.mul_comm x.length nb ▸ hr)
  rw [getD_flatten_uniform d _ nb (by simp) r (by simpa using hr)]
  have hmap : (x.map (List.replicate nb)).getD (r / nb) [] =
      List.replicate nb (x.getD (r / nb) d) := by
    rw [List.getD_eq_getElem?_getD, List.getElem?_map,
      List.getElem?_eq_getElem hdivlt, List.getD_eq_getElem?_getD,
      List.getElem?_eq_getElem hdivlt]
    rfl
  rw [hmap]
  simp [List.getD_eq_getElem?_getD, List.getElem?_replicate, Nat.mod_lt r hnb]

/-! ### Selection lemmas: extractMax, topKPairs, argmaxIdx -/

lemma extractMax_eq_none {l : List (ℕ × Score)} :
    extractMax l = none ↔ l = [] := by
  cases l with
  | nil => simp [extractMax]
  | cons p rest =>
    simp only [extractMax]
    cases h : extractMax rest with
    | none => simp
    | some qr =>
      obtain ⟨q, rest2⟩ := qr
      by_cases hlt : p.2 < q.2 <;> simp [hlt]

lemma extractMax_perm {l : List (ℕ × Score)} {p : ℕ × Score} {rest : List (ℕ × Score)}
    (h : extractMax l = some (p, rest)) : l.Perm (p :: rest) := by
  induction l generalizing p rest with
  | nil => simp [extractMax] at h
  | cons a tail ih =>
    simp only [extractMax] at h
    cases htail : extractMax tail with
    | none =>
      rw [htail] at h
      have : tail = [] := extractMax_eq_none.mp htail
      subst this
      simp only [Option.some.injEq, Prod.mk.injEq] at h
      rw [h.1, h.2]
    | some qr =>
      obtain ⟨q, rest2⟩ := qr
      rw [htail] at h
      have h2 : (if a.2 < q.2 then some (q, a :: rest2) else some (a, tail)) =
          some (p, rest) := h
      by_cases hlt : a.2 < q.2
      · rw [if_pos hlt] at h2
        simp only [Option.some.injEq, Prod.mk.injEq] at h2
        obtain ⟨hq, hrest⟩ := h2
        rw [← hq, ← hrest]
        exact ((ih htail).cons a).trans (List.Perm.swap q a rest2)
      · rw [if_neg hlt] at h2
        simp only [Option.some.injEq, Prod.mk.injEq] at h2
        obtain ⟨hq, hrest⟩ := h2
        rw [← hq, ← hrest]

lemma extractMax_mem {l : List (ℕ × Score)} {p : ℕ × Score} {rest : List (ℕ × Score)}
    (h : extractMax l = some (p, rest)) : p ∈ l :=
  (extractMax_perm h).symm.mem_iff.mp (by simp)

lemma extractMax_length {l : List (ℕ × Score)} {p : ℕ × Score} {rest : List (ℕ × Score)}
    (h : extractMax l = some (p, rest)) : l.length = rest.length + 1 := by
  have := (extractMax_perm h).length_eq
  simpa using this

lemma extractMax_le {l : List (ℕ × Score)} {p : ℕ × Score} {rest : List (ℕ × Score)}
    (h : extractMax l = some (p, rest)) : ∀ q ∈ l, q.2 ≤ p.2 := by
  induction l generalizing p rest with
  | nil => simp [extractMax] at h
  | cons a tail ih =>
    simp only [extractMax] at h
    cases htail : extractMax tail with
    | none =>
      rw [htail] at h
      have : tail = [] := extractMax_eq_none.mp htail
      subst this
      simp only [Option.some.injEq, Prod.mk.injEq] at h
      intro q hq
      simp only [List.mem_singleton] at hq
      subst hq
      rw [h.1]
    | some qr =>
      obtain ⟨qq, rest2⟩ := qr
      rw [htail] at h
      have h2 : (if a.2 < qq.2 then some (qq, a :: rest2) else some (a, tail)) =
          some (p, rest) := h
      by_cases hlt : a.2 < qq.2
      · rw [if_pos hlt] at h2
        simp only [Option.some.injEq, Prod.mk.injEq] at h2
        obtain ⟨hq, hrest⟩ := h2
        rw [← hq]
        intro q hqmem
        rcases List.mem_cons.mp hqmem with rfl | hmem
        · exact le_of_lt hlt
        · exact ih htail q hmem
      · rw [if_neg hlt] at h2
        simp only [Option.some.injEq, Prod.mk.injEq] at h2
        obtain ⟨hq, hrest⟩ := h2
        rw [← hq]
        intro q hqmem
        rcases List.mem_cons.mp hqmem with rfl | hmem
        · exact le_rfl
        · exact le_trans (ih htail q hmem) (not_lt.mp hlt)

lemma topKPairs_subset {k : ℕ} {l : List (ℕ × Score)} :
    ∀ p ∈ topKPairs k l, p ∈ l := by
  induction k generalizing l with
  | zero => simp [topKPairs]
  | succ k ih =>
    intro p hp
    simp only [topKPairs] at hp
    cases h : extractMax l with
    | none => rw [h] at hp; simp at hp
    | some qr =>
      obtain ⟨q, rest⟩ := qr
      rw [h] at hp
      rcases List.mem_cons.mp hp with rfl | hmem
      · exact extractMax_mem h
      · exact (extractMax_perm h).symm.mem_iff.mp (by simp [ih p hmem])

lemma topKPairs_length {k : ℕ} {l : List (ℕ × Score)} (h : k ≤ l.length) :
    (topKPairs k l).length = k := by
  induction k generalizing l with
  | zero => simp [topKPairs]
  | succ k ih =>
    simp only [topKPairs]
    cases hx : extractMax l with
    | none =>
      have : l = [] := extractMax_eq_none.mp hx
      subst this
      simp at h
    | some qr =>
      obtain ⟨q, rest⟩ := qr
      have hlen := extractMax_length hx
      simp only [List.length_cons]
      rw [ih (by omega)]

lemma topKPairs_perm {k : ℕ} {l : List (ℕ × Score)} (h : l.length ≤ k) :
    (topKPairs k l).Perm l := by
  induction k generalizing l with
  | zero =>
    have : l = [] := List.length_eq_zero.mp (by omega)
    subst this
    simp [topKPairs]
  | succ k ih =>
    simp only [topKPairs]
    cases hx : extractMax l with
    | none =>
      have : l = [] := extractMax_eq_none.mp hx
      subst this
      exact List.Perm.refl _
    | some qr =>
      obtain ⟨q, rest⟩ := qr
      have hlen := extractMax_length hx
      have hperm := extractMax_perm hx
      exact ((ih (by omega)).cons q).trans hperm.symm

lemma topKPairs_pairwise {k : ℕ} {l : List (ℕ × Score)} :
    (topKPairs k l).Pairwise fun a c => c.2 ≤ a.2 := by
  induction k generalizing l with
  | zero => simp [topKPairs]
  | succ k ih =>
    simp only [topKPairs]
    cases hx : extractMax l with
    | none => simp
    | some qr =>
      obtain ⟨q, rest⟩ := qr
      refine List.Pairwise.cons ?_ ih
      intro a ha
      have hmem : a ∈ rest := topKPairs_subset a ha
      have : a ∈ l := (extractMax_perm hx).symm.mem_iff.mp (by simp [hmem])
      exact extractMax_le hx a this

lemma mem_enum_getD {xs : List Score} {p : ℕ × Score} (h : p ∈ xs.enum) :
    p.1 < xs.length ∧ xs.getD p.1 0 = p.2 := by
  rw [List.mem_enum_iff_getElem?] at h
  refine ⟨?_, ?_⟩
  · exact (List.getElem?_eq_some_iff.mp h).1
  · rw [List.getD_eq_getElem?_getD, h]
    rfl

lemma extractMax_enum_isSome {xs : List Score} (h : xs ≠ []) :
    ∃ p rest, extractMax xs.enum = some (p, rest) := by
  cases hx : extractMax xs.enum with
  | none =>
    have := extractMax_eq_none.mp hx
    rw [List.enum_eq_nil] at this
    exact absurd this h
  | some qr =>
    obtain ⟨p, rest⟩ := qr
    exact ⟨p, rest, rfl⟩

lemma argmaxIdx_lt_length {xs : List Score} (h : xs ≠ []) :
    argmaxIdx xs < xs.length := by
  obtain ⟨p, rest, hx⟩ := extractMax_enum_isSome h
  rw [argmaxIdx, hx]
  exact (mem_enum_getD (extractMax_mem hx)).1

lemma getD_le_argmaxIdx {xs : List Score} (i : ℕ) (hi : i < xs.length) :
    xs.getD i 0 ≤ xs.getD (argmaxIdx xs) 0 := by
  have hne : xs ≠ [] := by
    intro hnil
    subst hnil
    simp at hi
  obtain ⟨p, rest, hx⟩ := extractMax_enum_isSome hne
  rw [argmaxIdx, hx]
  have hpmem := mem_enum_getD (extractMax_mem hx)
  have himem : (i, xs.getD i 0) ∈ xs.enum := by
    rw [List.mem_enum_iff_getElem?, List.getElem?_eq_getElem hi,
      List.getD_eq_getElem?_getD, List.getElem?_eq_getElem hi]
    rfl
  have := extractMax_le hx (i, xs.getD i 0) himem
  rw [← hpmem.2] at this
  exact this

/-! ### Loop iteration count -/

lemma runLoop_steps_le {σ : Type} (cond : σ → Bool) (body : σ → σ) (n : ℕ)
    (s : σ) : (runLoop cond body n s).2 ≤ n := by
  induction n generalizing s with
  | zero => simp [runLoop]
  | succ n ih =>
    simp only [runLoop]
    by_cases h : cond s
    · simp only [h, if_pos]
      exact Nat.succ_le_succ (ih (body s))
    · simp [h]

/-- C4: for every decode call with prompt row length `length` and start
position `startIndex`, the decode loop (the `run_loop` invocation of lines
206-211, with `maximum_iterations = max_length - index`) performs at most
`length - startIndex` body iterations, for every oracle, every end-token
configuration and every loop state. -/
theorem decode_loop_iteration_bound {γ A : Type} (probsOf : List Score → List Score)
    (logFn : Score → Score)
    (next : List (List ℤ) → Option γ → ℕ → List (List Score) × A × Option γ)
    (gatherCache : List (List ℕ) → γ → γ) (hasCache : Bool) (batch nb : ℕ)
    (mask : List (List Bool)) (endTokenId : Option ℤ)
    (prompt : List (List ℤ)) (startIndex : ℕ) (s0 : LoopState γ) :
    (beamLoop probsOf logFn next gatherCache hasCache batch nb mask endTokenId
        s0 ((prompt.headD []).length - startIndex)).2 ≤
      (prompt.headD []).length - startIndex :=
  runLoop_steps_le _ _ _ _

/-- C7: the initial per-beam log-probabilities (line 146-149 of the source:
the row `[0.0] + [-1e9] * (num_beams - 1)`, repeated per batch element and
flattened) give, for every batch element, log-probability 0 to exactly the
first beam and the sentinel -1e9 to every other beam. -/
theorem init_log_probs_one_hot (batch nb : ℕ) (hnb : 1 ≤ nb) (b j : ℕ)
    (hb : b < batch) (hj : j < nb) :
    ((List.replicate batch (initLogProbsRow (nb : ℤ))).flatten.getD
        (b * nb + j) 0 = 0 ↔ j = 0) ∧
      (1 ≤ j →
        (List.replicate batch (initLogProbsRow (nb : ℤ))).flatten.getD
          (b * nb + j) 0 = -1000000000) := by
  have hrowval : initLogProbsRow (nb : ℤ) =
      0 :: List.replicate (nb - 1) (-1000000000) := by
    unfold initLogProbsRow
    have htn : ((nb : ℤ) - 1).toNat = nb - 1 := by omega
    rw [htn]
  have hrowlen : (initLogProbsRow (nb : ℤ)).length = nb := by
    rw [hrowval]
    simp only [List.length_cons, List.length_replicate]
    omega
  have hidx : b * nb + j < (List.replicate batch (initLogProbsRow (nb : ℤ))).length * nb := by
    simp only [List.length_replicate]
    nlinarith
  have hflat := getD_flatten_uniform (0 : Score)
    (List.replicate batch (initLogProbsRow (nb : ℤ))) nb
    (by intro row hrow; rw [List.eq_of_mem_replicate hrow]; exact hrowlen)
    (b * nb + j) hidx
  have hdiv : (b * nb + j) / nb = b := by
    rw [Nat.add_comm, Nat.add_mul_div_right _ _ (by omega : 0 < nb),
      Nat.div_eq_of_lt hj]
    omega
  have hmod : (b * nb + j) % nb = j := by
    rw [Nat.add_comm, Nat.add_mul_mod_self_right, Nat.mod_eq_of_lt hj]
  rw [hflat, hdiv, hmod]
  have hget : (List.replicate batch (initLogProbsRow (nb : ℤ))).getD b [] =
      initLogProbsRow (nb : ℤ) := by
    rw [List.getD_eq_getElem?_getD, List.getElem?_replicate, if_pos hb]
    rfl
  rw [hget, hrowval]
  constructor
  · cases j with
    | zero => simp
    | succ j =>
      simp only [List.getD_cons_succ]
      have hj2 : j < nb - 1 := by omega
      rw [List.getD_eq_getElem?_getD, List.getElem?_replicate, if_pos hj2]
      norm_num
  · intro hj1
    obtain ⟨j2, rfl⟩ : ∃ j2, j = j2 + 1 := ⟨j - 1, by omega⟩
    simp only [List.getD_cons_succ]
    have hj2 : j2 < nb - 1 := by omega
    rw [List.getD_eq_getElem?_getD, List.getElem?_replicate, if_pos hj2]
    rfl

/-- Witness for C7 at batch 2, 3 beams, batch element 1, beam 2. -/
theorem init_log_probs_one_hot_witness :
    (1 ≤ 3 ∧ 1 < 2 ∧ 2 < 3) ∧
      (((List.replicate 2 (initLogProbsRow (3 : ℤ))).flatten.getD
          (1 * 3 + 2) 0 = 0 ↔ (2 : ℕ) = 0) ∧
        (1 ≤ 2 →
          (List.replicate 2 (initLogProbsRow (3 : ℤ))).flatten.getD
            (1 * 3 + 2) 0 = -1000000000)) :=
  ⟨⟨by decide, by decide, by decide⟩,
    init_log_probs_one_hot 2 3 (by decide) 1 2 (by decide) (by decide)⟩

/-- C8: every candidate selected by the per-batch top-k (line 171-175 of the
source) from a flattened candidate vector of size `num_beams * vocab_size`
decomposes as originating beam `i / vocab_size` and token `i % vocab_size`,
with `beam * vocab_size + token = i`, `beam < num_beams` and
`token < vocab_size`. -/
theorem candidate_index_recovery (numBeams vocab : ℕ) (hv : 0 < vocab)
    (cands : List Score) (hlen : cands.length = numBeams * vocab) :
    ∀ p ∈ topKPairs numBeams cands.enum,
      p.1 / vocab < numBeams ∧ p.1 % vocab < vocab ∧
        (p.1 / vocab) * vocab + p.1 % vocab = p.1 := by
  intro p hp
  have hmem : p ∈ cands.enum := topKPairs_subset p hp
  have hlt : p.1 < cands.length := (mem_enum_getD hmem).1
  rw [hlen] at hlt
  refine ⟨?_, Nat.mod_lt _ hv, ?_⟩
  · exact Nat.div_lt_of_lt_mul (by rw [Nat.mul_comm]; exact hlt)
  · rw [Nat.mul_comm]
    exact Nat.div_add_mod p.1 vocab

/-- Witness for C8 on a concrete candidate vector with 2 beams and a
3-token vocabulary. -/
theorem candidate_index_recovery_witness :
    ((0 : ℕ) < 3 ∧
        ([(5 : Score), 1, 2, 7, 0, 3].length = 2 * 3)) ∧
      (∀ p ∈ topKPairs 2 ([(5 : Score), 1, 2, 7, 0, 3].enum),
        p.1 / 3 < 2 ∧ p.1 % 3 < 3 ∧ (p.1 / 3) * 3 + p.1 % 3 = p.1) :=
  ⟨⟨by decide, by decide⟩,
    candidate_index_recovery 2 3 (by decide) [(5 : Score), 1, 2, 7, 0, 3]
      (by decide)⟩

/-! ### Independence of the unused inputs (C9) -/

lemma decodeBody_congr {γ A1 A2 : Type} (probsOf : List Score → List Score)
    (logFn : Score → Score)
    (next1 : List (List ℤ) → Option γ → ℕ → List (List Score) × A1 × Option γ)
    (next2 : List (List ℤ) → Option γ → ℕ → List (List Score) × A2 × Option γ)
    (gatherCache : List (List ℕ) → γ → γ) (hasCache : Bool) (batch nb : ℕ)
    (mask : List (List Bool))
    (h1 : ∀ p c i, (next1 p c i).1 = (next2 p c i).1)
    (h2 : ∀ p c i, (next1 p c i).2.2 = (next2 p c i).2.2)
    (s : LoopState γ) :
    decodeBody probsOf logFn next1 gatherCache hasCache batch nb mask s =
      decodeBody probsOf logFn next2 gatherCache hasCache batch nb mask s := by
  simp only [decodeBody, h1, h2]

lemma runLoop_congr {σ : Type} (cond : σ → Bool) (b1 b2 : σ → σ)
    (h : ∀ s, b1 s = b2 s) (n : ℕ) (s : σ) :
    runLoop cond b1 n s = runLoop cond b2 n s := by
  induction n generalizing s with
  | zero => rfl
  | succ n ih =>
    simp only [runLoop]
    by_cases hc : cond s
    · simp only [hc, if_pos, h, ih]
    · simp [hc]

/-- C9: the decode result is independent of the `hiddenStates` argument
(accepted and never read) and of the auxiliary per-step value the oracle
returns (discarded by the body): two calls whose oracles agree on logits
and updated cache produce identical outputs. -/
theorem hidden_state_and_aux_independence {γ A1 A2 K1 K2 : Type}
    (numBeams : ℤ) (returnAllBeams : Bool) (probsOf : List Score → List Score)
    (logFn : Score → Score)
    (next1 : List (List ℤ) → Option γ → ℕ → List (List Score) × A1 × Option γ)
    (next2 : List (List ℤ) → Option γ → ℕ → List (List Score) × A2 × Option γ)
    (repCache : γ → γ) (gatherCache : List (List ℕ) → γ → γ)
    (prompt : List (List ℤ)) (cache : Option γ) (index : ℕ)
    (mask : Option (List (List Bool))) (endTokenId : Option ℤ)
    (h1 : ∀ p c i, (next1 p c i).1 = (next2 p c i).1)
    (h2 : ∀ p c i, (next1 p c i).2.2 = (next2 p c i).2.2)
    (hs1 : K1) (hs2 : K2) :
    call numBeams returnAllBeams probsOf logFn next1 repCache gatherCache
        prompt cache index mask endTokenId hs1 =
      call numBeams returnAllBeams probsOf logFn next2 repCache gatherCache
        prompt cache index mask endTokenId hs2 := by
  have hbody : ∀ (hc : Bool) (batch nb : ℕ) (m : List (List Bool)),
      decodeBody probsOf logFn next1 gatherCache hc batch nb m =
        decodeBody probsOf logFn next2 gatherCache hc batch nb m :=
    fun hc batch nb m => funext fun s =>
      decodeBody_congr probsOf logFn next1 next2 gatherCache hc batch nb m
        h1 h2 s
  simp only [call, decodeResult, beamLoop, hbody]

/-- Witness for C9: two oracles differing only in auxiliary output, and two
different hidden-state values, give the same decode result. -/
theorem hidden_state_and_aux_independence_witness :
    ((∀ (p : List (List ℤ)) (c : Option Unit) (i : ℕ),
        ((p.map fun _ => [(1 : Score), 2]), (7 : ℕ), c).1 =
          ((p.map fun _ => [(1 : Score), 2]), (9 : ℕ), c).1) ∧
      (∀ (p : List (List ℤ)) (c : Option Unit) (i : ℕ),
        ((p.map fun _ => [(1 : Score), 2]), (7 : ℕ), c).2.2 =
          ((p.map fun _ => [(1 : Score), 2]), (9 : ℕ), c).2.2)) ∧
      call (γ := Unit) 2 false id id
          (fun p c i => ((p.map fun _ => [(1 : Score), 2]), (7 : ℕ), c))
          id (fun _ => id) [[5, 0]] none 1 none none (0 : ℕ) =
        call (γ := Unit) 2 false id id
          (fun p c i => ((p.map fun _ => [(1 : Score), 2]), (9 : ℕ), c))
          id (fun _ => id) [[5, 0]] none 1 none none (1 : ℕ) :=
  ⟨⟨fun p c i => rfl, fun p c i => rfl⟩,
    hidden_state_and_aux_independence 2 false id id
      (fun p c i => ((p.map fun _ => [(1 : Score), 2]), (7 : ℕ), c))
      (fun p c i => ((p.map fun _ => [(1 : Score), 2]), (9 : ℕ), c))
      id (fun _ => id) [[5, 0]] none 1 none none
      (fun p c i => rfl) (fun p c i => rfl) (0 : ℕ) (1 : ℕ)⟩

/-! ### The end-token loop condition (C1) -/

/-- C1 counterexample: batch size 1 with 2 beams, end token 9, all-false
mask, current prompt rows `[9,0]` and `[0,0]`.  The sole batch element has
a beam (beam 0) whose end token appears at a non-fixed position, so the
claimed condition says the loop stops; the actual loop condition still
returns true (continue), because it requires the end token in every beam
of every batch element. -/
theorem end_token_cond_counterexample :
    decodeCond (γ := Unit) (some 9) [[false, false], [false, false]]
        ⟨[[9, 0], [0, 0]], none, 1, [0, 0]⟩ = true ∧
      ∀ b < 1, ∃ j < 2, ∃ p < 2,
        ([[(9 : ℤ), 0], [0, 0]].getD (b * 2 + j) []).getD p 0 = 9 ∧
          ([[false, false], [false, false]].getD (b * 2 + j) []).getD p
            false = false := by
  constructor
  · decide
  · decide

/-- C1 (amended): with an end token configured, the loop condition is true
(continue) exactly while at least one row — one beam of one batch element,
over the flattened batch-times-beam axis — contains no occurrence of the
end token at a position whose mask is false; equivalently the loop stops
only once every beam of every batch element has a non-fixed end token. -/
theorem end_token_cond_characterization {γ : Type} (e : ℤ)
    (mask : List (List Bool)) (s : LoopState γ)
    (hlen : mask.length = s.prompt.length)
    (hrow : ∀ r, r < s.prompt.length →
      (mask.getD r []).length = (s.prompt.getD r []).length) :
    decodeCond (some e) mask s = true ↔
      ∃ r, r < s.prompt.length ∧ ∀ p, p < (s.prompt.getD r []).length →
        ¬((s.prompt.getD r []).getD p 0 = e ∧
          (mask.getD r []).getD p false = false) := by
  have hziplen : (s.prompt.zip mask).length = s.prompt.length := by
    rw [List.length_zip, hlen, Nat.min_self]
  constructor
  · intro h
    simp only [decodeCond, Bool.not_eq_eq_eq_not, Bool.not_true,
      List.all_eq_false] at h
    obtain ⟨x, hmem, hnotany⟩ := h
    obtain ⟨r, hr, hx⟩ := List.mem_iff_getElem.mp hmem
    have hr2 : r < s.prompt.length := by omega
    have hrm : r < mask.length := by omega
    have hxval : x = (s.prompt[r], mask[r]) := by
      rw [← hx]
      exact List.getElem_zip
    have hlen2 := hrow r hr2
    rw [List.getD_eq_getElem mask [] hrm,
      List.getD_eq_getElem s.prompt [] hr2] at hlen2
    refine ⟨r, hr2, ?_⟩
    intro p hp hcontra
    apply hnotany
    rw [hxval]
    simp only [List.any_eq_true]
    rw [List.getD_eq_getElem s.prompt [] hr2] at hp
    have hplen : p < (s.prompt[r].zip mask[r]).length := by
      rw [List.length_zip, lt_min_iff]
      omega
    refine ⟨(s.prompt[r].zip mask[r])[p], List.getElem_mem hplen, ?_⟩
    have hp2 : p < s.prompt[r].length := hp
    have hp3 : p < mask[r].length := by omega
    rw [List.getElem_zip]
    obtain ⟨hce, hcm⟩ := hcontra
    rw [List.getD_eq_getElem s.prompt [] hr2,
      List.getD_eq_getElem s.prompt[r] 0 hp2] at hce
    rw [List.getD_eq_getElem mask [] hrm,
      List.getD_eq_getElem mask[r] false hp3] at hcm
    simp [hce, hcm]
  · intro h
    obtain ⟨r, hr, hall⟩ := h
    simp only [decodeCond, Bool.not_eq_eq_eq_not, Bool.not_true,
      List.all_eq_false]
    have hrm : r < mask.length := by omega
    have hrz : r < (s.prompt.zip mask).length := by omega
    refine ⟨(s.prompt.zip mask)[r], List.getElem_mem hrz, ?_⟩
    rw [List.getElem_zip]
    simp only [List.any_eq_true, not_exists]
    rintro tm ⟨htm, hg⟩
    obtain ⟨p, hp, htmval⟩ := List.mem_iff_getElem.mp htm
    have hp2 : p < s.prompt[r].length := by
      rw [List.length_zip, lt_min_iff] at hp
      exact hp.1
    have hp3 : p < mask[r].length := by
      rw [List.length_zip, lt_min_iff] at hp
      exact hp.2
    rw [List.getElem_zip] at htmval
    have hthis := hall p
      (by rw [List.getD_eq_getElem s.prompt [] hr]; exact hp2)
    rw [List.getD_eq_getElem s.prompt [] hr,
      List.getD_eq_getElem mask [] hrm,
      List.getD_eq_getElem s.prompt[r] 0 hp2,
      List.getD_eq_getElem mask[r] false hp3] at hthis
    rw [← htmval] at hg
    simp only [Bool.and_eq_true, decide_eq_true_eq,
      Bool.not_eq_true'] at hg
    exact hthis hg

/-- Witness for the amended C1 on a concrete state: with prompt rows
`[9,0]` and `[0,0]` and an all-false mask, the condition is true because
row 1 has no end token. -/
theorem end_token_cond_characterization_witness :
    (([[false, false], [false, false]] : List (List Bool)).length =
        ([[(9 : ℤ), 0], [0, 0]] : List (List ℤ)).length ∧
      (∀ r, r < ([[(9 : ℤ), 0], [0, 0]] : List (List ℤ)).length →
        (([[false, false], [false, false]] : List (List Bool)).getD r
            []).length =
          (([[(9 : ℤ), 0], [0, 0]] : List (List ℤ)).getD r []).length)) ∧
      (decodeCond (γ := Unit) (some 9) [[false, false], [false, false]]
          ⟨[[9, 0], [0, 0]], none, 1, [0, 0]⟩ = true ↔
        ∃ r, r < ([[(9 : ℤ), 0], [0, 0]] : List (List ℤ)).length ∧
          ∀ p, p < (([[(9 : ℤ), 0], [0, 0]] : List (List ℤ)).getD r
              []).length →
            ¬((([[(9 : ℤ), 0], [0, 0]] : List (List ℤ)).getD r []).getD p
                0 = 9 ∧
              (([[false, false], [false, false]] : List (List Bool)).getD
                  r []).getD p false = false)) :=
  ⟨⟨by decide, by decide⟩,
    end_token_cond_characterization (γ := Unit) 9
      [[false, false], [false, false]]
      ⟨[[9, 0], [0, 0]], none, 1, [0, 0]⟩ (by decide) (by decide)⟩

/-! ### Fail-fast on an invalid beam count (C3) -/

/-- C3: with `num_beams < 1` and a non-empty prompt, the first decode call
fails with an invalid-argument condition before the loop runs: a negative
count fails inside `ops.repeat` (line 142), and `num_beams = 0` fails the
reshape of the initial log-probabilities (line 149), whose element count
`batch * max(num_beams, 1)` cannot match `batch * 0`. -/
theorem invalid_num_beams_fails {γ A K : Type} (numBeams : ℤ)
    (returnAllBeams : Bool) (probsOf : List Score → List Score) (logFn : Score → Score)
    (next : List (List ℤ) → Option γ → ℕ → List (List Score) × A × Option γ)
    (repCache : γ → γ) (gatherCache : List (List ℕ) → γ → γ)
    (prompt : List (List ℤ)) (cache : Option γ) (index : ℕ)
    (mask : Option (List (List Bool))) (endTokenId : Option ℤ)
    (hiddenStates : K) (hnb : numBeams < 1) (hprompt : prompt ≠ []) :
    ∃ msg, call numBeams returnAllBeams probsOf logFn next repCache
      gatherCache prompt cache index mask endTokenId hiddenStates =
        Except.error msg := by
  by_cases hneg : numBeams < 0
  · refine ⟨"invalid-argument: repeats must be non-negative", ?_⟩
    simp only [call, opsRepeat, if_pos hneg]
    rfl
  · have h0 : numBeams = 0 := by omega
    subst h0
    refine ⟨"invalid-argument: reshape element count mismatch", ?_⟩
    have hbatch : 0 < prompt.length := List.length_pos.mpr hprompt
    have hrow0 : initLogProbsRow 0 = [(0 : Score)] := rfl
    have hflatlen :
        (List.replicate prompt.length (initLogProbsRow 0)).flatten.length =
          prompt.length := by
      rw [length_flatten_uniform _ 1 (by
        intro row hrowmem
        rw [List.eq_of_mem_replicate hrowmem, hrow0]
        rfl)]
      simp
    have hcond :
        ¬(((List.replicate prompt.length
            (initLogProbsRow 0)).flatten.length : ℤ) =
          (prompt.length : ℤ) * 0) := by
      rw [hflatlen]
      simp only [Int.mul_zero]
      omega
    simp only [call, opsRepeat, if_neg (by omega : ¬(0 : ℤ) < 0),
      reshapeFlat, if_neg hcond]
    rfl

/-- Witness for C3 at `num_beams = 0` with a one-row prompt. -/
theorem invalid_num_beams_fails_witness :
    ((0 : ℤ) < 1 ∧ ([[(5 : ℤ), 0]] : List (List ℤ)) ≠ []) ∧
      ∃ msg, call (γ := Unit) (A := Unit) (K := Unit) 0 false id id
        (fun p c i => (p.map fun _ => [(1 : Score), 2], (), c)) id
        (fun _ => id) [[5, 0]] none 0 none none () = Except.error msg :=
  ⟨⟨by decide, by decide⟩,
    invalid_num_beams_fails 0 false id id
      (fun p c i => (p.map fun _ => [(1 : Score), 2], (), c)) id
      (fun _ => id) [[5, 0]] none 0 none none () (by decide) (by decide)⟩

/-! ### Loop invariants -/

/-- Shape discipline of the step-oracle contract and the probability
transform: the logits tensor has one row per flattened sequence, the rows
form a rectangle of positive width, and the probability transform
preserves row length. -/
def OracleWF {γ A : Type} (probsOf : List Score → List Score)
    (next : List (List ℤ) → Option γ → ℕ → List (List Score) × A × Option γ) :
    Prop :=
  (∀ row, (probsOf row).length = row.length) ∧
    ∀ p c i, (next p c i).1.length = p.length ∧
      ∀ row ∈ (next p c i).1,
        row.length = ((next p c i).1.headD []).length ∧ 0 < row.length

/-- Structural invariant of the loop state: the flattened prompt and the
log-probability vector keep `batch * num_beams` rows, and every prompt
row keeps its length. -/
def StateWF {γ : Type} (batch nb L : ℕ) (s : LoopState γ) : Prop :=
  s.prompt.length = batch * nb ∧ s.logProbs.length = batch * nb ∧
    ∀ row ∈ s.prompt, row.length = L

/-- Content invariant of the loop state: the current position never drops
below the start position, and every row agrees with its originating
caller prompt row on every position that is masked or lies before the
start position. -/
def ContentInv {γ : Type} (origPrompt : List (List ℤ))
    (origMask : List (List Bool)) (batch nb startIdx : ℕ)
    (s : LoopState γ) : Prop :=
  startIdx ≤ s.index ∧
    ∀ r, r < batch * nb → ∀ p,
      ((origMask.getD (r / nb) []).getD p false = true ∨ p < startIdx) →
      (s.prompt.getD r []).getD p 0 = (origPrompt.getD (r / nb) []).getD p 0

lemma block_div {nb : ℕ} (b j : ℕ) (hj : j < nb) : (b * nb + j) / nb = b := by
  rw [Nat.add_comm, Nat.add_mul_div_right _ _ (by omega : 0 < nb),
    Nat.div_eq_of_lt hj]
  omega

lemma block_mod {nb : ℕ} (b j : ℕ) (hj : j < nb) : (b * nb + j) % nb = j := by
  rw [Nat.add_comm, Nat.add_mul_mod_self_right, Nat.mod_eq_of_lt hj]

lemma initLogProbsRow_length {nb : ℕ} (hnb : 1 ≤ nb) :
    (initLogProbsRow (nb : ℤ)).length = nb := by
  unfold initLogProbsRow
  simp only [List.length_cons, List.length_replicate]
  omega

lemma runLoop_inv {σ : Type} (cond : σ → Bool) (body : σ → σ) (P : σ → Prop)
    (hP : ∀ s, P s → P (body s)) (n : ℕ) (s : σ) (h : P s) :
    P (runLoop cond body n s).1 := by
  induction n generalizing s with
  | zero => exact h
  | succ n ih =>
    simp only [runLoop]
    by_cases hc : cond s
    · simp only [hc, if_pos]
      exact ih (body s) (hP s h)
    · simpa [hc] using h

lemma writeColumn_length (index : ℕ) (mask : List (List Bool))
    (prompt : List (List ℤ)) (tok : List ℕ)
    (hm : prompt.length ≤ mask.length) (ht : prompt.length ≤ tok.length) :
    (writeColumn index mask prompt tok).length = prompt.length := by
  unfold writeColumn
  simp only [List.length_map, List.length_zip]
  omega

lemma writeColumn_getD (index : ℕ) (mask : List (List Bool))
    (prompt : List (List ℤ)) (tok : List ℕ) (r : ℕ)
    (hr : r < prompt.length) (hm : prompt.length ≤ mask.length)
    (ht : prompt.length ≤ tok.length) :
    (writeColumn index mask prompt tok).getD r [] =
      (prompt.getD r []).set index
        (if (mask.getD r []).getD index false then
          (prompt.getD r []).getD index 0
        else ((tok.getD r 0 : ℕ) : ℤ)) := by
  have hrm : r < mask.length := by omega
  have hrt : r < tok.length := by omega
  have hrz : r < (prompt.zip (mask.zip tok)).length := by
    simp only [List.length_zip, lt_min_iff]
    omega
  unfold writeColumn
  rw [List.getD_eq_getElem?_getD, List.getElem?_map,
    List.getElem?_eq_getElem hrz]
  have hzip : (prompt.zip (mask.zip tok))[r] =
      (prompt[r], (mask[r], tok[r])) := by
    rw [List.getElem_zip]
    congr 1
    rw [List.getElem_zip]
  rw [hzip]
  simp only [Option.map_some', Option.getD_some]
  rw [List.getD_eq_getElem prompt [] hr, List.getD_eq_getElem mask [] hrm,
    List.getD_eq_getElem tok 0 hrt]

lemma gatherRows_length (batch nb : ℕ) (beamIdx : List (List ℕ))
    (x : List (List ℤ)) (hbl : beamIdx.length = batch)
    (hrows : ∀ bl ∈ beamIdx, bl.length = nb) :
    (gatherRows batch nb beamIdx x).length = batch * nb := by
  unfold gatherRows
  rw [length_flatten_uniform _ nb]
  · simp only [List.length_map, List.length_zip, length_chunksFuel, hbl,
      Nat.min_self]
  · intro row hrow
    simp only [List.mem_map] at hrow
    obtain ⟨ci, hci, hrow2⟩ := hrow
    rw [← hrow2]
    simp only [List.length_map]
    exact hrows ci.2 (List.of_mem_zip hci).2

lemma gatherRows_getD (batch nb : ℕ) (beamIdx : List (List ℕ))
    (x : List (List ℤ)) (hx : x.length = batch * nb)
    (hbl : beamIdx.length = batch)
    (hrows : ∀ bl ∈ beamIdx, bl.length = nb)
    (hin : ∀ bl ∈ beamIdx, ∀ j ∈ bl, j < nb) (r : ℕ)
    (hr : r < batch * nb) :
    (gatherRows batch nb beamIdx x).getD r [] =
      x.getD ((r / nb) * nb + (beamIdx.getD (r / nb) []).getD (r % nb) 0)
        [] := by
  have hnb : 0 < nb := by
    rcases Nat.eq_zero_or_pos nb with h | h
    · subst h; simp at hr
    · exact h
  have hb0 : r / nb < batch :=
    Nat.div_lt_of_lt_mul (Nat.mul_comm batch nb ▸ hr)
  have hmod : r % nb < nb := Nat.mod_lt r hnb
  set L := ((chunksFuel batch nb x).zip beamIdx).map fun ci =>
    ci.2.map fun j => ci.1.getD j [] with hL
  have hLrows : ∀ row ∈ L, row.length = nb := by
    intro row hrow
    rw [hL] at hrow
    simp only [List.mem_map] at hrow
    obtain ⟨ci, hci, hrow2⟩ := hrow
    rw [← hrow2]
    simp only [List.length_map]
    exact hrows ci.2 (List.of_mem_zip hci).2
  have hLlen : L.length = batch := by
    rw [hL]
    simp only [List.length_map, List.length_zip, length_chunksFuel, hbl,
      Nat.min_self]
  have hrz : r / nb < ((chunksFuel batch nb x).zip beamIdx).length := by
    simp only [List.length_zip, length_chunksFuel, hbl, Nat.min_self]
    exact hb0
  have hgoal : (gatherRows batch nb beamIdx x) = L.flatten := by
    rw [hL]
    rfl
  rw [hgoal, getD_flatten_uniform [] L nb hLrows r (by rw [hLlen]; exact hr)]
  have hbm : r / nb < beamIdx.length := by omega
  have hLb : L.getD (r / nb) [] =
      (beamIdx.getD (r / nb) []).map fun j =>
        ((chunksFuel batch nb x).getD (r / nb) []).getD j [] := by
    rw [hL, List.getD_eq_getElem?_getD, List.getElem?_map,
      List.getElem?_eq_getElem hrz]
    simp only [Option.map_some', Option.getD_some]
    have hc0 : r / nb < (chunksFuel batch nb x).length := by
      rw [length_chunksFuel]
      exact hb0
    have hzipval : ((chunksFuel batch nb x).zip beamIdx)[r / nb] =
        ((chunksFuel batch nb x)[r / nb], beamIdx[r / nb]) :=
      List.getElem_zip
    rw [hzipval]
    rw [List.getD_eq_getElem beamIdx [] hbm,
      List.getD_eq_getElem (chunksFuel batch nb x) []
        (by rw [length_chunksFuel]; exact hb0)]
  rw [hLb]
  have hblrow : beamIdx.getD (r / nb) [] ∈ beamIdx := by
    rw [List.getD_eq_getElem beamIdx [] hbm]
    exact List.getElem_mem hbm
  have hjlen : r % nb < (beamIdx.getD (r / nb) []).length := by
    rw [hrows _ hblrow]
    exact hmod
  have hmapget :
      ((beamIdx.getD (r / nb) []).map fun j =>
          ((chunksFuel batch nb x).getD (r / nb) []).getD j []).getD
        (r % nb) [] =
      ((chunksFuel batch nb x).getD (r / nb) []).getD
        ((beamIdx.getD (r / nb) []).getD (r % nb) 0) [] := by
    rw [List.getD_eq_getElem?_getD, List.getElem?_map,
      List.getElem?_eq_getElem hjlen]
    simp only [Option.map_some', Option.getD_some]
    rw [List.getD_eq_getElem (beamIdx.getD (r / nb) []) 0 hjlen]
  rw [hmapget]
  have hjin : (beamIdx.getD (r / nb) []).getD (r % nb) 0 < nb := by
    apply hin _ hblrow
    rw [List.getD_eq_getElem (beamIdx.getD (r / nb) []) 0 hjlen]
    exact List.getElem_mem hjlen
  exact getD_chunksFuel_getD batch nb (r / nb) _ x [] hb0 hjin

/-! ### Facts about one decode step -/

lemma candidateRows_length (probsOf : List Score → List Score) (logFn : Score → Score)
    (batch nb : ℕ) (logits : List (List Score)) (logProbs : List Score) :
    (candidateRows probsOf logFn batch nb logits logProbs).length = batch := by
  unfold candidateRows
  simp [length_chunksFuel]

lemma candidateRows_rowlength {probsOf : List Score → List Score} {logFn : Score → Score}
    {batch nb : ℕ} {logits : List (List Score)} {logProbs : List Score} {V : ℕ}
    (hpOf : ∀ row, (probsOf row).length = row.length)
    (hrect : ∀ row ∈ logits, row.length = V)
    (hplen : logits.length = batch * nb)
    (hlp : logProbs.length = batch * nb) :
    ∀ c ∈ candidateRows probsOf logFn batch nb logits logProbs,
      c.length = nb * V := by
  intro c hc
  unfold candidateRows at hc
  simp only [List.mem_map] at hc
  obtain ⟨chunk, hchunk, hflat⟩ := hc
  have hnlplen :
      ((logits.map probsOf).zip logProbs).length = batch * nb := by
    simp only [List.length_zip, List.length_map, hplen, hlp, Nat.min_self]
  have hnlprows : ∀ row ∈ (((logits.map probsOf).zip logProbs).map fun pr =>
      pr.1.map fun q => logFn q + pr.2), row.length = V := by
    intro row hrow
    simp only [List.mem_map] at hrow
    obtain ⟨pr, hpr, hrow2⟩ := hrow
    rw [← hrow2]
    simp only [List.length_map]
    have hpr1 : pr.1 ∈ logits.map probsOf := (List.of_mem_zip hpr).1
    simp only [List.mem_map] at hpr1
    obtain ⟨lrow, hlrow, hpr1eq⟩ := hpr1
    rw [← hpr1eq, hpOf lrow]
    exact hrect lrow hlrow
  obtain ⟨b0, hb0, hchunkval⟩ := mem_chunksFuel hchunk
  have hchunklen : chunk.length = nb := by
    rw [hchunkval]
    simp only [List.length_take, List.length_drop, List.length_map,
      hnlplen]
    have : b0 * nb + nb ≤ batch * nb := by nlinarith
    omega
  have hchunkrows : ∀ row ∈ chunk, row.length = V := by
    intro row hrow
    rw [hchunkval] at hrow
    exact hnlprows row (List.mem_of_mem_drop (List.mem_of_mem_take hrow))
  rw [← hflat, length_flatten_uniform chunk V hchunkrows, hchunklen]

lemma selectedPairs_length (probsOf : List Score → List Score) (logFn : Score → Score)
    (batch nb : ℕ) (logits : List (List Score)) (logProbs : List Score) :
    (selectedPairs probsOf logFn batch nb logits logProbs).length = batch := by
  unfold selectedPairs
  simp [candidateRows_length]

lemma selectedPairs_rows {probsOf : List Score → List Score}
    (logFn : Score → Score)
    {batch nb : ℕ} {logits : List (List Score)} {logProbs : List Score}
    {V : ℕ} (hV : 0 < V)
    (hpOf : ∀ row, (probsOf row).length = row.length)
    (hrect : ∀ row ∈ logits, row.length = V)
    (hplen : logits.length = batch * nb)
    (hlp : logProbs.length = batch * nb) :
    ∀ l ∈ selectedPairs probsOf logFn batch nb logits logProbs,
      l.length = nb ∧ ∀ p ∈ l, p.1 < nb * V := by
  intro l hl
  unfold selectedPairs at hl
  simp only [List.mem_map] at hl
  obtain ⟨c, hc, hlval⟩ := hl
  have hclen : c.length = nb * V :=
    candidateRows_rowlength hpOf hrect hplen hlp c hc
  constructor
  · rw [← hlval]
    apply topKPairs_length
    rw [List.enum_length, hclen]
    exact Nat.le_mul_of_pos_right nb hV
  · intro p hp
    rw [← hlval] at hp
    have hpmem : p ∈ c.enum := topKPairs_subset p hp
    have := (mem_enum_getD hpmem).1
    omega

/-- Shape facts shared by the step lemmas: the logits row count, the
rectangle width `V`, and the selection shape facts, packaged for reuse. -/
lemma step_shape_facts {γ A : Type} {probsOf : List Score → List Score}
    {next : List (List ℤ) → Option γ → ℕ → List (List Score) × A × Option γ}
    {batch nb L : ℕ} {s : LoopState γ}
    (hOrc : OracleWF probsOf next) (hWF : StateWF batch nb L s)
    (hbpos : 0 < batch) (hnb : 1 ≤ nb) :
    (next s.prompt s.cache s.index).1.length = batch * nb ∧
      (∀ row ∈ (next s.prompt s.cache s.index).1,
        row.length = (((next s.prompt s.cache s.index).1.headD []).length)) ∧
      0 < ((next s.prompt s.cache s.index).1.headD []).length := by
  obtain ⟨hplen, hlplen, hrows⟩ := hWF
  have hbn : 0 < batch * nb := Nat.mul_pos hbpos (by omega)
  have hloglen : (next s.prompt s.cache s.index).1.length = batch * nb := by
    rw [(hOrc.2 s.prompt s.cache s.index).1, hplen]
  have hlognil : (next s.prompt s.cache s.index).1 ≠ [] := by
    intro hnil
    rw [hnil] at hloglen
    simp only [List.length_nil] at hloglen
    omega
  refine ⟨hloglen, ?_, ?_⟩
  · exact fun row hrow => ((hOrc.2 s.prompt s.cache s.index).2 row hrow).1
  · have hhead : (next s.prompt s.cache s.index).1.headD [] ∈
        (next s.prompt s.cache s.index).1 := by
      cases hlg : (next s.prompt s.cache s.index).1 with
      | nil => exact absurd hlg hlognil
      | cons a rest => simp
    have h2 := ((hOrc.2 s.prompt s.cache s.index).2 _ hhead).2
    have h3 := ((hOrc.2 s.prompt s.cache s.index).2 _ hhead).1
    omega

/-- One decode step, row by row: under the oracle shape contract, every
row `r` of the new prompt is a row of the old prompt taken from the same
batch element (the gather step), with the token column at the current
position overwritten — and on a masked position the overwritten value is
the gathered row's own token there. -/
lemma decodeBody_row {γ A : Type} {probsOf : List Score → List Score}
    {logFn : Score → Score}
    {next : List (List ℤ) → Option γ → ℕ → List (List Score) × A × Option γ}
    {gatherCache : List (List ℕ) → γ → γ} {hasCache : Bool}
    {batch nb L : ℕ} {mask : List (List Bool)} {s : LoopState γ}
    (hOrc : OracleWF probsOf next) (hnb : 1 ≤ nb)
    (hmask : mask.length = batch * nb) (hWF : StateWF batch nb L s)
    (r : ℕ) (hr : r < batch * nb) :
    ∃ j, j < nb ∧ ∃ t : ℤ,
      ((decodeBody probsOf logFn next gatherCache hasCache batch nb mask
          s).prompt.getD r []) =
        (s.prompt.getD ((r / nb) * nb + j) []).set s.index t ∧
      ((mask.getD r []).getD s.index false = true →
        t = (s.prompt.getD ((r / nb) * nb + j) []).getD s.index 0) := by
  have hbpos : 0 < batch := by
    rcases Nat.eq_zero_or_pos batch with h | h
    · subst h; simp at hr
    · exact h
  obtain ⟨hloglen, hrect, hVpos⟩ := step_shape_facts hOrc hWF hbpos hnb
  obtain ⟨hplen, hlplen, hrows⟩ := hWF
  set logits := (next s.prompt s.cache s.index).1 with hlogits
  set V := (logits.headD []).length with hV
  have hselfacts := selectedPairs_rows logFn hVpos
    hOrc.1 hrect hloglen hlplen
  set sel := selectedPairs probsOf logFn batch nb logits s.logProbs
    with hsel
  have hsellen : sel.length = batch := selectedPairs_length _ _ _ _ _ _
  set beamIdx := sel.map fun l => l.map fun p => p.1 / V with hbeamIdx
  have hbil : beamIdx.length = batch := by
    rw [hbeamIdx, List.length_map, hsellen]
  have hbirows : ∀ bl ∈ beamIdx, bl.length = nb := by
    intro bl hbl
    rw [hbeamIdx] at hbl
    simp only [List.mem_map] at hbl
    obtain ⟨l, hl, hblval⟩ := hbl
    rw [← hblval, List.length_map]
    exact (hselfacts l hl).1
  have hbiin : ∀ bl ∈ beamIdx, ∀ j ∈ bl, j < nb := by
    intro bl hbl j hj
    rw [hbeamIdx] at hbl
    simp only [List.mem_map] at hbl
    obtain ⟨l, hl, hblval⟩ := hbl
    rw [← hblval] at hj
    simp only [List.mem_map] at hj
    obtain ⟨p, hp, hjval⟩ := hj
    have := (hselfacts l hl).2 p hp
    rw [← hjval]
    exact Nat.div_lt_of_lt_mul (by rw [Nat.mul_comm]; exact this)
  set nextTok := (sel.map fun l => l.map fun p => p.1 % V).flatten
    with hnextTok
  have htoklen : nextTok.length = batch * nb := by
    rw [hnextTok, length_flatten_uniform _ nb]
    · rw [List.length_map, hsellen]
    · intro row hrow
      simp only [List.mem_map] at hrow
      obtain ⟨l, hl, hrow2⟩ := hrow
      rw [← hrow2, List.length_map]
      exact (hselfacts l hl).1
  set prompt2 := gatherRows batch nb beamIdx s.prompt with hprompt2
  have hp2len : (gatherRows batch nb beamIdx s.prompt).length =
      batch * nb := gatherRows_length batch nb beamIdx s.prompt hbil hbirows
  have hbody : (decodeBody probsOf logFn next gatherCache hasCache batch nb
      mask s).prompt = writeColumn s.index mask prompt2 nextTok := rfl
  have hwc := writeColumn_getD s.index mask prompt2 nextTok r
    (by rw [hprompt2, hp2len]; exact hr)
    (by rw [hprompt2, hp2len, hmask])
    (by rw [hprompt2, hp2len, htoklen])
  have hgather := gatherRows_getD batch nb beamIdx s.prompt hplen hbil
    hbirows hbiin r hr
  refine ⟨(beamIdx.getD (r / nb) []).getD (r % nb) 0, ?_, ?_⟩
  · have hbm : r / nb < beamIdx.length := by
      rw [hbil]
      exact Nat.div_lt_of_lt_mul (Nat.mul_comm batch nb ▸ hr)
    have hblrow : beamIdx.getD (r / nb) [] ∈ beamIdx := by
      rw [List.getD_eq_getElem beamIdx [] hbm]
      exact List.getElem_mem hbm
    have hjlen : r % nb < (beamIdx.getD (r / nb) []).length := by
      rw [hbirows _ hblrow]
      exact Nat.mod_lt r (by omega)
    apply hbiin _ hblrow
    rw [List.getD_eq_getElem (beamIdx.getD (r / nb) []) 0 hjlen]
    exact List.getElem_mem hjlen
  · refine ⟨if (mask.getD r []).getD s.index false then
      (prompt2.getD r []).getD s.index 0
    else ((nextTok.getD r 0 : ℕ) : ℤ), ?_, ?_⟩
    · rw [hbody, hwc, hgather]
    · intro hmsk
      rw [if_pos hmsk, hgather]

/-- One decode step preserves the structural invariant. -/
lemma decodeBody_StateWF {γ A : Type} {probsOf : List Score → List Score}
    {logFn : Score → Score}
    {next : List (List ℤ) → Option γ → ℕ → List (List Score) × A × Option γ}
    {gatherCache : List (List ℕ) → γ → γ} {hasCache : Bool}
    {batch nb L : ℕ} {mask : List (List Bool)} {s : LoopState γ}
    (hOrc : OracleWF probsOf next) (hnb : 1 ≤ nb)
    (hmask : mask.length = batch * nb) (hWF : StateWF batch nb L s) :
    StateWF batch nb L
      (decodeBody probsOf logFn next gatherCache hasCache batch nb mask
        s) := by
  rcases Nat.eq_zero_or_pos batch with hbz | hbpos
  · subst hbz
    have hselnil :
        selectedPairs probsOf logFn 0 nb (next s.prompt s.cache s.index).1
          s.logProbs = [] := by
      unfold selectedPairs candidateRows
      simp [chunksFuel]
    have hpn : (decodeBody probsOf logFn next gatherCache hasCache 0 nb mask
        s).prompt = [] := by
      show writeColumn s.index mask _ _ = []
      unfold writeColumn gatherRows
      rw [hselnil]
      simp [chunksFuel]
    have hln : (decodeBody probsOf logFn next gatherCache hasCache 0 nb mask
        s).logProbs = [] := by
      show ((selectedPairs probsOf logFn 0 nb
        (next s.prompt s.cache s.index).1 s.logProbs).map
        fun l => l.map fun p => p.2).flatten = []
      rw [hselnil]
      simp
    refine ⟨?_, ?_, ?_⟩
    · rw [hpn]
      simp
    · rw [hln]
      simp
    · intro row hrow
      rw [hpn] at hrow
      simp at hrow
  · obtain ⟨hloglen, hrect, hVpos⟩ := step_shape_facts hOrc hWF hbpos hnb
    obtain ⟨hplen, hlplen, hrows⟩ := hWF
    set logits := (next s.prompt s.cache s.index).1 with hlogits
    set V := (logits.headD []).length with hV
    have hselfacts := selectedPairs_rows logFn hVpos
      hOrc.1 hrect hloglen hlplen
    set sel := selectedPairs probsOf logFn batch nb logits s.logProbs
      with hsel
    have hsellen : sel.length = batch := selectedPairs_length _ _ _ _ _ _
    set beamIdx := sel.map fun l => l.map fun p => p.1 / V with hbeamIdx
    have hbil : beamIdx.length = batch := by
      rw [hbeamIdx, List.length_map, hsellen]
    have hbirows : ∀ bl ∈ beamIdx, bl.length = nb := by
      intro bl hbl
      rw [hbeamIdx] at hbl
      simp only [List.mem_map] at hbl
      obtain ⟨l, hl, hblval⟩ := hbl
      rw [← hblval, List.length_map]
      exact (hselfacts l hl).1
    set nextTok := (sel.map fun l => l.map fun p => p.1 % V).flatten
      with hnextTok
    have htoklen : nextTok.length = batch * nb := by
      rw [hnextTok, length_flatten_uniform _ nb]
      · rw [List.length_map, hsellen]
      · intro row hrow
        simp only [List.mem_map] at hrow
        obtain ⟨l, hl, hrow2⟩ := hrow
        rw [← hrow2, List.length_map]
        exact (hselfacts l hl).1
    set prompt2 := gatherRows batch nb beamIdx s.prompt with hprompt2
    have hp2len : (gatherRows batch nb beamIdx s.prompt).length =
        batch * nb :=
      gatherRows_length batch nb beamIdx s.prompt hbil hbirows
    have hbody : (decodeBody probsOf logFn next gatherCache hasCache batch
        nb mask s).prompt = writeColumn s.index mask prompt2 nextTok := rfl
    have hwlen : (writeColumn s.index mask prompt2 nextTok).length =
        batch * nb := by
      rw [writeColumn_length s.index mask prompt2 nextTok
        (by rw [hprompt2, hp2len, hmask])
        (by rw [hprompt2, hp2len, htoklen]), hprompt2, hp2len]
    refine ⟨?_, ?_, ?_⟩
    · rw [hbody, hwlen]
    · show ((sel.map fun l => l.map fun p => p.2).flatten).length =
        batch * nb
      rw [length_flatten_uniform _ nb]
      · rw [List.length_map, hsellen]
      · intro row hrow
        simp only [List.mem_map] at hrow
        obtain ⟨l, hl, hrow2⟩ := hrow
        rw [← hrow2, List.length_map]
        exact (hselfacts l hl).1
    · intro row hrow
      rw [hbody] at hrow
      obtain ⟨r, hrlt, hrval⟩ := List.mem_iff_getElem.mp hrow
      have hrlt2 : r < batch * nb := by
        rw [hwlen] at hrlt
        exact hrlt
      obtain ⟨j, hj, t, hteq, _⟩ := decodeBody_row hOrc hnb hmask
        ⟨hplen, hlplen, hrows⟩ r hrlt2
      have hdivlt : r / nb < batch :=
        Nat.div_lt_of_lt_mul (Nat.mul_comm batch nb ▸ hrlt2)
      have hold : (r / nb) * nb + j < batch * nb := by nlinarith
      have holdmem : s.prompt.getD ((r / nb) * nb + j) [] ∈ s.prompt := by
        rw [List.getD_eq_getElem s.prompt []
          (by omega : (r / nb) * nb + j < s.prompt.length)]
        exact List.getElem_mem (by omega)
      have hbodyrow : (decodeBody probsOf logFn next gatherCache hasCache
          batch nb mask s).prompt.getD r [] = row := by
        rw [hbody, List.getD_eq_getElem _ [] hrlt]
        exact hrval
      rw [← hbodyrow, hteq, List.length_set]
      exact hrows _ holdmem

/-! ### From the call wrapper to the loop -/

lemma getD_map_in {α β : Type} (f : α → β) (l : List α) (d : α) (db : β)
    (i : ℕ) (hi : i < l.length) : (l.map f).getD i db = f (l.getD i d) := by
  rw [List.getD_eq_getElem?_getD, List.getElem?_map,
    List.getElem?_eq_getElem hi, List.getD_eq_getElem l d hi]
  rfl

lemma getD_zip_map {α β χ : Type} (f : α × β → χ) (l : List α) (m : List β)
    (dl : α) (dm : β) (dc : χ) (i : ℕ) (hi : i < l.length)
    (hm : i < m.length) :
    ((l.zip m).map f).getD i dc = f (l.getD i dl, m.getD i dm) := by
  have hz : i < (l.zip m).length := by
    rw [List.length_zip, lt_min_iff]
    exact ⟨hi, hm⟩
  rw [List.getD_eq_getElem?_getD, List.getElem?_map,
    List.getElem?_eq_getElem hz]
  have : (l.zip m)[i] = (l[i], m[i]) := List.getElem_zip
  rw [this, List.getD_eq_getElem l dl hi, List.getD_eq_getElem m dm hm]
  rfl

/-- With a valid beam count and an explicit mask, the call wrapper reduces
to `decodeResult` applied to the replicated prompt and mask and the
initial log-probabilities. -/
lemma call_some_mask_eq {γ A K : Type} (nb : ℕ) (hnb : 1 ≤ nb)
    (returnAllBeams : Bool) (probsOf : List Score → List Score) (logFn : Score → Score)
    (next : List (List ℤ) → Option γ → ℕ → List (List Score) × A × Option γ)
    (repCache : γ → γ) (gatherCache : List (List ℕ) → γ → γ)
    (prompt : List (List ℤ)) (cache : Option γ) (index : ℕ)
    (m : List (List Bool)) (endTokenId : Option ℤ) (hs : K) :
    call (nb : ℤ) returnAllBeams probsOf logFn next repCache gatherCache
        prompt cache index (some m) endTokenId hs =
      Except.ok (decodeResult returnAllBeams probsOf logFn next gatherCache
        cache.isSome prompt.length nb ((m.map (List.replicate nb)).flatten)
        endTokenId
        ⟨(prompt.map (List.replicate nb)).flatten, cache.map repCache, index,
          (List.replicate prompt.length (initLogProbsRow (nb : ℤ))).flatten⟩
        ((prompt.headD []).length - index)) := by
  have hneg : ¬((nb : ℤ) < 0) := by omega
  have htn : ((nb : ℤ)).toNat = nb := by omega
  have hlen :
      ((List.replicate prompt.length
          (initLogProbsRow (nb : ℤ))).flatten.length : ℤ) =
        (prompt.length : ℤ) * (nb : ℤ) := by
    rw [length_flatten_uniform _ nb (fun row hrow => by
      rw [List.eq_of_mem_replicate hrow]
      exact initLogProbsRow_length hnb)]
    push_cast
    rw [List.length_replicate]
  simp only [call, opsRepeat, if_neg hneg, reshapeFlat, if_pos hlen, htn]
  rfl

/-- The initial loop state satisfies the structural invariant. -/
lemma initial_StateWF {γ : Type} (prompt : List (List ℤ)) (nb L : ℕ)
    (cache : Option γ) (index : ℕ) (hnb : 1 ≤ nb)
    (hrows : ∀ row ∈ prompt, row.length = L) :
    StateWF prompt.length nb L
      (⟨(prompt.map (List.replicate nb)).flatten, cache, index,
        (List.replicate prompt.length
          (initLogProbsRow (nb : ℤ))).flatten⟩ : LoopState γ) := by
  refine ⟨length_repeatFlat nb prompt, ?_, ?_⟩
  · rw [length_flatten_uniform _ nb (fun row hrow => by
      rw [List.eq_of_mem_replicate hrow]
      exact initLogProbsRow_length hnb)]
    rw [List.length_replicate]
  · intro row hrow
    rw [List.mem_flatten] at hrow
    obtain ⟨l, hl, hrowl⟩ := hrow
    simp only [List.mem_map] at hl
    obtain ⟨r0, hr0, hleq⟩ := hl
    rw [← hleq] at hrowl
    rw [List.eq_of_mem_replicate hrowl]
    exact hrows r0 hr0

/-- The initial loop state satisfies the content invariant (every row is a
copy of its originating caller prompt row). -/
lemma initial_ContentInv {γ : Type} (prompt : List (List ℤ))
    (m : List (List Bool)) (nb index : ℕ) (cache : Option γ)
    (lp : List Score) :
    ContentInv prompt m prompt.length nb index
      (⟨(prompt.map (List.replicate nb)).flatten, cache, index, lp⟩ :
        LoopState γ) := by
  refine ⟨le_refl _, ?_⟩
  intro r hr p hp
  rw [getD_repeatFlat [] nb prompt r hr]

/-- One decode step preserves the content invariant. -/
lemma decodeBody_ContentInv {γ A : Type} {probsOf : List Score → List Score}
    {logFn : Score → Score}
    {next : List (List ℤ) → Option γ → ℕ → List (List Score) × A × Option γ}
    {gatherCache : List (List ℕ) → γ → γ} {hasCache : Bool}
    {batch nb L startIdx : ℕ} {mask : List (List Bool)}
    {origPrompt : List (List ℤ)} {origMask : List (List Bool)}
    {s : LoopState γ}
    (hOrc : OracleWF probsOf next) (hnb : 1 ≤ nb)
    (hmaskl : mask.length = batch * nb)
    (hmaskval : ∀ r, r < batch * nb →
      mask.getD r [] = origMask.getD (r / nb) [])
    (hWF : StateWF batch nb L s)
    (hCI : ContentInv origPrompt origMask batch nb startIdx s) :
    ContentInv origPrompt origMask batch nb startIdx
      (decodeBody probsOf logFn next gatherCache hasCache batch nb mask
        s) := by
  obtain ⟨hidx, hcont⟩ := hCI
  refine ⟨?_, ?_⟩
  · show startIdx ≤ s.index + 1
    omega
  · intro r hr p hp
    obtain ⟨j, hj, t, hteq, htmask⟩ := decodeBody_row hOrc hnb hmaskl hWF r hr
    have hdivlt : r / nb < batch :=
      Nat.div_lt_of_lt_mul (Nat.mul_comm batch nb ▸ hr)
    have hqlt : (r / nb) * nb + j < batch * nb := by nlinarith
    have hqdiv : ((r / nb) * nb + j) / nb = r / nb := block_div (r / nb) j hj
    have hcontq := hcont ((r / nb) * nb + j) hqlt p (by rw [hqdiv]; exact hp)
    rw [hqdiv] at hcontq
    have hidxeq : (decodeBody probsOf logFn next gatherCache hasCache batch
        nb mask s).index = s.index + 1 := rfl
    rw [hteq]
    by_cases hpe : p = s.index
    · rcases hp with hmp | hlt
      · have hm2 : (mask.getD r []).getD s.index false = true := by
          rw [hmaskval r hr, ← hpe]
          exact hmp
        have ht := htmask hm2
        rw [hpe, ht]
        have hsetself : ∀ (l : List ℤ),
            (l.set s.index (l.getD s.index 0)).getD s.index 0 =
              l.getD s.index 0 := by
          intro l
          by_cases hlen : s.index < l.length
          · rw [List.getD_eq_getElem?_getD, List.getElem?_set]
            rw [if_pos rfl, if_pos hlen]
            rfl
          · rw [List.getD_eq_getElem?_getD, List.getElem?_set]
            rw [if_pos rfl, if_neg hlen]
            rw [List.getD_eq_getElem?_getD,
              List.getElem?_eq_none (by omega : l.length ≤ s.index)]
        rw [hsetself]
        rw [hpe] at hcontq
        exact hcontq
      · omega
    · have hne : ((s.prompt.getD ((r / nb) * nb + j) []).set s.index
          t).getD p 0 = (s.prompt.getD ((r / nb) * nb + j) []).getD p 0 := by
        rw [List.getD_eq_getElem?_getD,
          List.getElem?_set_ne (fun h => hpe h.symm),
          ← List.getD_eq_getElem?_getD]
      rw [hne]
      exact hcontq

/-- The full decode loop preserves both invariants. -/
lemma beamLoop_inv {γ A : Type} (probsOf : List Score → List Score) (logFn : Score → Score)
    (next : List (List ℤ) → Option γ → ℕ → List (List Score) × A × Option γ)
    (gatherCache : List (List ℕ) → γ → γ) (hasCache : Bool)
    (batch nb L startIdx : ℕ) (mask : List (List Bool))
    (origPrompt : List (List ℤ)) (origMask : List (List Bool))
    (endTokenId : Option ℤ)
    (hOrc : OracleWF probsOf next) (hnb : 1 ≤ nb)
    (hmaskl : mask.length = batch * nb)
    (hmaskval : ∀ r, r < batch * nb →
      mask.getD r [] = origMask.getD (r / nb) [])
    (maxIter : ℕ) (s0 : LoopState γ)
    (h0 : StateWF batch nb L s0 ∧
      ContentInv origPrompt origMask batch nb startIdx s0) :
    StateWF batch nb L
        ((beamLoop probsOf logFn next gatherCache hasCache batch nb mask
          endTokenId s0 maxIter).1) ∧
      ContentInv origPrompt origMask batch nb startIdx
        ((beamLoop probsOf logFn next gatherCache hasCache batch nb mask
          endTokenId s0 maxIter).1) := by
  unfold beamLoop
  exact runLoop_inv _ _
    (fun s => StateWF batch nb L s ∧
      ContentInv origPrompt origMask batch nb startIdx s)
    (fun s hs => ⟨decodeBody_StateWF hOrc hnb hmaskl hs.1,
      decodeBody_ContentInv hOrc hnb hmaskl hmaskval hs.1 hs.2⟩)
    maxIter s0 h0

lemma opsArgsort_neg_neg (row : List Score) :
    opsArgsort (row.map fun q => -q) =
      (topKPairs row.length row.enum).map Prod.fst := by
  unfold opsArgsort
  have h1 : ((row.map fun q => -q).map fun q => -q) = row := by
    rw [List.map_map]
    simp
  rw [List.length_map, h1]

lemma length_opsArgsort_neg (row : List Score) :
    (opsArgsort (row.map fun q => -q)).length = row.length := by
  rw [opsArgsort_neg_neg, List.length_map,
    topKPairs_length (by rw [List.enum_length])]

lemma opsArgsort_neg_mem_lt (row : List Score) {i : ℕ}
    (hi : i ∈ opsArgsort (row.map fun q => -q)) : i < row.length := by
  rw [opsArgsort_neg_neg] at hi
  simp only [List.mem_map] at hi
  obtain ⟨p, hp, hpi⟩ := hi
  have hmem : p ∈ row.enum := topKPairs_subset p hp
  have := (mem_enum_getD hmem).1
  omega

/-- Every sequence the result selector returns is a row of the final loop
state taken from the matching batch element. -/
lemma decodeResult_row_source {γ A : Type} (returnAllBeams : Bool)
    (probsOf : List Score → List Score) (logFn : Score → Score)
    (next : List (List ℤ) → Option γ → ℕ → List (List Score) × A × Option γ)
    (gatherCache : List (List ℕ) → γ → γ) (hasCache : Bool)
    (batch nb : ℕ) (mask2 : List (List Bool)) (endTokenId : Option ℤ)
    (s0 : LoopState γ) (maxIter : ℕ) (L : ℕ) (hnb : 1 ≤ nb)
    (hWF : StateWF batch nb L ((beamLoop probsOf logFn next gatherCache
      hasCache batch nb mask2 endTokenId s0 maxIter).1)) :
    ∀ b, b < batch →
      match decodeResult returnAllBeams probsOf logFn next gatherCache
          hasCache batch nb mask2 endTokenId s0 maxIter with
      | DecodeOutput.single seqs => ∃ r, r < batch * nb ∧ r / nb = b ∧
          seqs.getD b [] = (beamLoop probsOf logFn next gatherCache hasCache
            batch nb mask2 endTokenId s0 maxIter).1.prompt.getD r []
      | DecodeOutput.all seqs scores => ∀ k, k < nb →
          ∃ r, r < batch * nb ∧ r / nb = b ∧
            (seqs.getD b []).getD k [] = (beamLoop probsOf logFn next
              gatherCache hasCache batch nb mask2 endTokenId s0
              maxIter).1.prompt.getD r [] := by
  intro b hb
  obtain ⟨hFp, hFl, hFrows⟩ := hWF
  set F := (beamLoop probsOf logFn next gatherCache hasCache batch nb mask2
    endTokenId s0 maxIter).1 with hF
  have hap_len : (chunksFuel batch nb F.prompt).length = batch :=
    length_chunksFuel _ _ _
  have hal_len : (chunksFuel batch nb F.logProbs).length = batch :=
    length_chunksFuel _ _ _
  have hrowlen : ((chunksFuel batch nb F.logProbs).getD b []).length = nb :=
    length_getD_chunksFuel batch nb b F.logProbs hb (by omega)
  cases returnAllBeams with
  | false =>
    show ∃ r, r < batch * nb ∧ r / nb = b ∧
      (((chunksFuel batch nb F.prompt).zip
        ((chunksFuel batch nb F.logProbs).map argmaxIdx)).map
          fun pb => pb.1.getD pb.2 []).getD b [] = F.prompt.getD r []
    have hrow_ne : (chunksFuel batch nb F.logProbs).getD b [] ≠ [] := by
      intro hnil
      rw [hnil] at hrowlen
      simp at hrowlen
      omega
    have ht : argmaxIdx ((chunksFuel batch nb F.logProbs).getD b []) < nb := by
      have := argmaxIdx_lt_length hrow_ne
      omega
    refine ⟨b * nb + argmaxIdx ((chunksFuel batch nb F.logProbs).getD b []),
      ?_, ?_, ?_⟩
    · nlinarith
    · exact block_div b _ ht
    · rw [getD_zip_map (fun pb => pb.1.getD pb.2 []) _ _ [] 0 [] b
        (by rw [hap_len]; exact hb)
        (by rw [List.length_map, hal_len]; exact hb)]
      rw [getD_map_in argmaxIdx _ [] 0 b (by rw [hal_len]; exact hb)]
      exact getD_chunksFuel_getD batch nb b _ F.prompt [] hb ht
  | true =>
    intro k hk
    show ∃ r, r < batch * nb ∧ r / nb = b ∧
      ((((chunksFuel batch nb F.prompt).zip
        ((chunksFuel batch nb F.logProbs).map fun row =>
          opsArgsort (row.map fun q => -q))).map
          fun pi => pi.2.map fun i => pi.1.getD i []).getD b []).getD k [] =
        F.prompt.getD r []
    set row := (chunksFuel batch nb F.logProbs).getD b [] with hrowdef
    have hsp : ((((chunksFuel batch nb F.prompt).zip
        ((chunksFuel batch nb F.logProbs).map fun row2 =>
          opsArgsort (row2.map fun q => -q))).map
          fun pi => pi.2.map fun i => pi.1.getD i []).getD b []) =
        (opsArgsort (row.map fun q => -q)).map fun i =>
          ((chunksFuel batch nb F.prompt).getD b []).getD i [] := by
      rw [getD_zip_map (fun pi => pi.2.map fun i => pi.1.getD i [])
        _ _ [] [] [] b (by rw [hap_len]; exact hb)
        (by rw [List.length_map, hal_len]; exact hb)]
      rw [getD_map_in (fun row2 => opsArgsort (row2.map fun q => -q))
        _ [] [] b (by rw [hal_len]; exact hb)]
    rw [hsp]
    have hklen : k < (opsArgsort (row.map fun q => -q)).length := by
      rw [length_opsArgsort_neg, hrowdef, hrowlen]
      exact hk
    set i0 := (opsArgsort (row.map fun q => -q)).getD k 0 with hi0
    have hi0mem : i0 ∈ opsArgsort (row.map fun q => -q) := by
      rw [hi0, List.getD_eq_getElem _ 0 hklen]
      exact List.getElem_mem hklen
    have hi0lt : i0 < nb := by
      have := opsArgsort_neg_mem_lt row hi0mem
      rw [hrowdef, hrowlen] at this
      exact this
    refine ⟨b * nb + i0, by nlinarith, block_div b i0 hi0lt, ?_⟩
    rw [getD_map_in (fun i => ((chunksFuel batch nb F.prompt).getD b
      []).getD i []) _ 0 [] k hklen]
    rw [← hi0]
    exact getD_chunksFuel_getD batch nb b i0 F.prompt [] hb hi0lt

/-- C2: for every decode call and every position marked true in the input
mask, the token at that position in every returned sequence (the single
top beam, or each of the returned beams) equals the input prompt token at
that position, for every oracle satisfying the shape contract. -/
theorem mask_preservation {γ A K : Type} (nb : ℕ) (hnb : 1 ≤ nb)
    (returnAllBeams : Bool) (probsOf : List Score → List Score) (logFn : Score → Score)
    (next : List (List ℤ) → Option γ → ℕ → List (List Score) × A × Option γ)
    (repCache : γ → γ) (gatherCache : List (List ℕ) → γ → γ)
    (prompt : List (List ℤ)) (cache : Option γ) (index : ℕ)
    (m : List (List Bool)) (endTokenId : Option ℤ) (hs : K) (L : ℕ)
    (hOrc : OracleWF probsOf next)
    (hrows : ∀ row ∈ prompt, row.length = L)
    (hmlen : m.length = prompt.length) (out : DecodeOutput)
    (hcall : call (nb : ℤ) returnAllBeams probsOf logFn next repCache
      gatherCache prompt cache index (some m) endTokenId hs =
        Except.ok out) :
    ∀ b, b < prompt.length → ∀ p,
      (m.getD b []).getD p false = true →
      (∀ seqs, out = DecodeOutput.single seqs →
        (seqs.getD b []).getD p 0 = (prompt.getD b []).getD p 0) ∧
      (∀ seqs scores, out = DecodeOutput.all seqs scores → ∀ k, k < nb →
        ((seqs.getD b []).getD k []).getD p 0 =
          (prompt.getD b []).getD p 0) := by
  intro b hb p hp
  have hceq := call_some_mask_eq nb hnb returnAllBeams probsOf logFn next
    repCache gatherCache prompt cache index m endTokenId hs
  rw [hcall] at hceq
  have hout := Except.ok.inj hceq
  have hmask2len : ((m.map (List.replicate nb)).flatten).length =
      prompt.length * nb := by
    rw [length_repeatFlat, hmlen]
  have hmask2val : ∀ r, r < prompt.length * nb →
      ((m.map (List.replicate nb)).flatten).getD r [] =
        m.getD (r / nb) [] := by
    intro r hr
    exact getD_repeatFlat [] nb m r (by rw [hmlen]; exact hr)
  have hinv := beamLoop_inv probsOf logFn next gatherCache cache.isSome
    prompt.length nb L index ((m.map (List.replicate nb)).flatten)
    prompt m endTokenId hOrc hnb hmask2len hmask2val
    ((prompt.headD []).length - index)
    ⟨(prompt.map (List.replicate nb)).flatten, cache.map repCache, index,
      (List.replicate prompt.length (initLogProbsRow (nb : ℤ))).flatten⟩
    ⟨initial_StateWF prompt nb L (cache.map repCache) index hnb hrows,
      initial_ContentInv prompt m nb index (cache.map repCache) _⟩
  obtain ⟨hWFfin, hCIfin⟩ := hinv
  have hrowsrc := decodeResult_row_source returnAllBeams probsOf logFn next
    gatherCache cache.isSome prompt.length nb
    ((m.map (List.replicate nb)).flatten) endTokenId
    ⟨(prompt.map (List.replicate nb)).flatten, cache.map repCache, index,
      (List.replicate prompt.length (initLogProbsRow (nb : ℤ))).flatten⟩
    ((prompt.headD []).length - index) L hnb hWFfin b hb
  obtain ⟨hidxinv, hcont⟩ := hCIfin
  constructor
  · intro seqs hseqs
    rw [hout] at hseqs
    rw [hseqs] at hrowsrc
    obtain ⟨r, hr, hrdiv, hseq⟩ := hrowsrc
    rw [hseq]
    have hc := hcont r hr p (Or.inl (by rw [hrdiv]; exact hp))
    rw [hrdiv] at hc
    exact hc
  · intro seqs scores hseqs k hk
    rw [hout] at hseqs
    rw [hseqs] at hrowsrc
    obtain ⟨r, hr, hrdiv, hseq⟩ := hrowsrc k hk
    rw [hseq]
    have hc := hcont r hr p (Or.inl (by rw [hrdiv]; exact hp))
    rw [hrdiv] at hc
    exact hc

/-- C10: for every decode call, every position strictly before the start
index keeps the input prompt token in every returned sequence (single top
beam or every returned beam), whether or not the mask marks it, for every
oracle satisfying the shape contract. -/
theorem prefix_frame_preservation {γ A K : Type} (nb : ℕ) (hnb : 1 ≤ nb)
    (returnAllBeams : Bool) (probsOf : List Score → List Score) (logFn : Score → Score)
    (next : List (List ℤ) → Option γ → ℕ → List (List Score) × A × Option γ)
    (repCache : γ → γ) (gatherCache : List (List ℕ) → γ → γ)
    (prompt : List (List ℤ)) (cache : Option γ) (index : ℕ)
    (m : List (List Bool)) (endTokenId : Option ℤ) (hs : K) (L : ℕ)
    (hOrc : OracleWF probsOf next)
    (hrows : ∀ row ∈ prompt, row.length = L)
    (hmlen : m.length = prompt.length) (out : DecodeOutput)
    (hcall : call (nb : ℤ) returnAllBeams probsOf logFn next repCache
      gatherCache prompt cache index (some m) endTokenId hs =
        Except.ok out) :
    ∀ b, b < prompt.length → ∀ p, p < index →
      (∀ seqs, out = DecodeOutput.single seqs →
        (seqs.getD b []).getD p 0 = (prompt.getD b []).getD p 0) ∧
      (∀ seqs scores, out = DecodeOutput.all seqs scores → ∀ k, k < nb →
        ((seqs.getD b []).getD k []).getD p 0 =
          (prompt.getD b []).getD p 0) := by
  intro b hb p hp
  have hceq := call_some_mask_eq nb hnb returnAllBeams probsOf logFn next
    repCache gatherCache prompt cache index m endTokenId hs
  rw [hcall] at hceq
  have hout := Except.ok.inj hceq
  have hmask2len : ((m.map (List.replicate nb)).flatten).length =
      prompt.length * nb := by
    rw [length_repeatFlat, hmlen]
  have hmask2val : ∀ r, r < prompt.length * nb →
      ((m.map (List.replicate nb)).flatten).getD r [] =
        m.getD (r / nb) [] := by
    intro r hr
    exact getD_repeatFlat [] nb m r (by rw [hmlen]; exact hr)
  have hinv := beamLoop_inv probsOf logFn next gatherCache cache.isSome
    prompt.length nb L index ((m.map (List.replicate nb)).flatten)
    prompt m endTokenId hOrc hnb hmask2len hmask2val
    ((prompt.headD []).length - index)
    ⟨(prompt.map (List.replicate nb)).flatten, cache.map repCache, index,
      (List.replicate prompt.length (initLogProbsRow (nb : ℤ))).flatten⟩
    ⟨initial_StateWF prompt nb L (cache.map repCache) index hnb hrows,
      initial_ContentInv prompt m nb index (cache.map repCache) _⟩
  obtain ⟨hWFfin, hCIfin⟩ := hinv
  have hrowsrc := decodeResult_row_source returnAllBeams probsOf logFn next
    gatherCache cache.isSome prompt.length nb
    ((m.map (List.replicate nb)).flatten) endTokenId
    ⟨(prompt.map (List.replicate nb)).flatten, cache.map repCache, index,
      (List.replicate prompt.length (initLogProbsRow (nb : ℤ))).flatten⟩
    ((prompt.headD []).length - index) L hnb hWFfin b hb
  obtain ⟨hidxinv, hcont⟩ := hCIfin
  constructor
  · intro seqs hseqs
    rw [hout] at hseqs
    rw [hseqs] at hrowsrc
    obtain ⟨r, hr, hrdiv, hseq⟩ := hrowsrc
    rw [hseq]
    have hc := hcont r hr p (Or.inr hp)
    rw [hrdiv] at hc
    exact hc
  · intro seqs scores hseqs k hk
    rw [hout] at hseqs
    rw [hseqs] at hrowsrc
    obtain ⟨r, hr, hrdiv, hseq⟩ := hrowsrc k hk
    rw [hseq]
    have hc := hcont r hr p (Or.inr hp)
    rw [hrdiv] at hc
    exact hc

/-- Witness for C2: one batch element, two beams, prompt `[5,7]`, mask
fixing position 0, decoding from position 1; the masked token 5 survives
in the returned top beam. -/
theorem mask_preservation_witness :
    (call (γ := Unit) (A := Unit) (K := Unit) ((2 : ℕ) : ℤ) false id id
        (fun p c i => (p.map fun _ => [(1 : Score), 2], (), c)) id (fun _ => id)
        [[5, 7]] none 1 (some [[true, false]]) none () =
      Except.ok (DecodeOutput.single [[5, 1]])) ∧
      (∀ b, b < ([[(5 : ℤ), 7]] : List (List ℤ)).length → ∀ p,
        (([[true, false]] : List (List Bool)).getD b []).getD p false =
          true →
        (∀ seqs, DecodeOutput.single [[(5 : ℤ), 1]] =
            DecodeOutput.single seqs →
          (seqs.getD b []).getD p 0 =
            (([[(5 : ℤ), 7]] : List (List ℤ)).getD b []).getD p 0) ∧
        (∀ seqs scores, DecodeOutput.single [[(5 : ℤ), 1]] =
            DecodeOutput.all seqs scores → ∀ k, k < 2 →
          ((seqs.getD b []).getD k []).getD p 0 =
            (([[(5 : ℤ), 7]] : List (List ℤ)).getD b []).getD p 0)) := by
  constructor
  · rfl
  · exact mask_preservation (γ := Unit) (A := Unit) (K := Unit) 2
      (by decide) false id id
      (fun p c i => (p.map fun _ => [(1 : Score), 2], (), c)) id (fun _ => id)
      [[5, 7]] none 1 [[true, false]] none () 2
      (by
        constructor
        · intro row
          rfl
        · intro p c i
          refine ⟨by rw [List.length_map], ?_⟩
          intro row hrow
          simp only [List.mem_map] at hrow
          obtain ⟨a, ha, hrow2⟩ := hrow
          cases p with
          | nil => simp at ha
          | cons x t =>
            refine ⟨by rw [← hrow2]; rfl, by rw [← hrow2]; decide⟩)
      (by
        intro row hrow
        rw [List.mem_singleton] at hrow
        rw [hrow]
        rfl)
      (by decide) (DecodeOutput.single [[5, 1]]) (by rfl)

/-- Witness for C10: same concrete decode with all beams returned; both
returned beams keep the prompt token 5 at position 0, which lies before
the start index 1. -/
theorem prefix_frame_preservation_witness :
    (call (γ := Unit) (A := Unit) (K := Unit) ((2 : ℕ) : ℤ) true id id
        (fun p c i => (p.map fun _ => [(1 : Score), 2], (), c)) id (fun _ => id)
        [[5, 7]] none 1 (some [[true, false]]) none () =
      Except.ok (DecodeOutput.all [[[5, 1], [5, 0]]] [[2, 1]])) ∧
      (∀ b, b < ([[(5 : ℤ), 7]] : List (List ℤ)).length → ∀ p, p < 1 →
        (∀ seqs, DecodeOutput.all [[[(5 : ℤ), 1], [5, 0]]]
            ([[2, 1]] : List (List Score)) = DecodeOutput.single seqs →
          (seqs.getD b []).getD p 0 =
            (([[(5 : ℤ), 7]] : List (List ℤ)).getD b []).getD p 0) ∧
        (∀ seqs scores, DecodeOutput.all [[[(5 : ℤ), 1], [5, 0]]]
            ([[2, 1]] : List (List Score)) = DecodeOutput.all seqs scores →
          ∀ k, k < 2 →
          ((seqs.getD b []).getD k []).getD p 0 =
            (([[(5 : ℤ), 7]] : List (List ℤ)).getD b []).getD p 0)) := by
  constructor
  · rfl
  · exact prefix_frame_preservation (γ := Unit) (A := Unit) (K := Unit) 2
      (by decide) true id id
      (fun p c i => (p.map fun _ => [(1 : Score), 2], (), c)) id (fun _ => id)
      [[5, 7]] none 1 [[true, false]] none () 2
      (by
        constructor
        · intro row
          rfl
        · intro p c i
          refine ⟨by rw [List.length_map], ?_⟩
          intro row hrow
          simp only [List.mem_map] at hrow
          obtain ⟨a, ha, hrow2⟩ := hrow
          cases p with
          | nil => simp at ha
          | cons x t =>
            refine ⟨by rw [← hrow2]; rfl, by rw [← hrow2]; decide⟩)
      (by
        intro row hrow
        rw [List.mem_singleton] at hrow
        rw [hrow]
        rfl)
      (by decide) (DecodeOutput.all [[[5, 1], [5, 0]]] [[2, 1]]) (by rfl)

/-- C5: with `return_all_beams = true`, for every batch element the
returned score vector is sorted in descending order, and the returned
sequences are the beams of the final loop state reordered by the same
index permutation as their scores. -/
theorem all_beams_sorted_and_matched {γ A K : Type} (nb : ℕ) (hnb : 1 ≤ nb)
    (probsOf : List Score → List Score) (logFn : Score → Score)
    (next : List (List ℤ) → Option γ → ℕ → List (List Score) × A × Option γ)
    (repCache : γ → γ) (gatherCache : List (List ℕ) → γ → γ)
    (prompt : List (List ℤ)) (cache : Option γ) (index : ℕ)
    (m : List (List Bool)) (endTokenId : Option ℤ) (hs : K) (L : ℕ)
    (hOrc : OracleWF probsOf next)
    (hrows : ∀ row ∈ prompt, row.length = L)
    (hmlen : m.length = prompt.length)
    (out : DecodeOutput)
    (hcall : call (nb : ℤ) true probsOf logFn next repCache gatherCache
      prompt cache index (some m) endTokenId hs = Except.ok out) :
    ∃ seqs scores, out = DecodeOutput.all seqs scores ∧
      ∀ b, b < prompt.length →
        (scores.getD b []).Pairwise (fun a c => c ≤ a) ∧
        ∃ σ : List ℕ, σ.Perm (List.range nb) ∧
          scores.getD b [] = σ.map (fun j =>
            ((chunksFuel prompt.length nb ((beamLoop probsOf logFn next
              gatherCache cache.isSome prompt.length nb
              ((m.map (List.replicate nb)).flatten) endTokenId
              ⟨(prompt.map (List.replicate nb)).flatten,
                cache.map repCache, index,
                (List.replicate prompt.length
                  (initLogProbsRow (nb : ℤ))).flatten⟩
              ((prompt.headD []).length - index)).1.logProbs)).getD b
                []).getD j 0) ∧
          seqs.getD b [] = σ.map (fun j =>
            ((chunksFuel prompt.length nb ((beamLoop probsOf logFn next
              gatherCache cache.isSome prompt.length nb
              ((m.map (List.replicate nb)).flatten) endTokenId
              ⟨(prompt.map (List.replicate nb)).flatten,
                cache.map repCache, index,
                (List.replicate prompt.length
                  (initLogProbsRow (nb : ℤ))).flatten⟩
              ((prompt.headD []).length - index)).1.prompt)).getD b
                []).getD j []) := by
  have hceq := call_some_mask_eq nb hnb true probsOf logFn next
    repCache gatherCache prompt cache index m endTokenId hs
  rw [hcall] at hceq
  have hout := Except.ok.inj hceq
  have hmask2len : ((m.map (List.replicate nb)).flatten).length =
      prompt.length * nb := by
    rw [length_repeatFlat, hmlen]
  have hmask2val : ∀ r, r < prompt.length * nb →
      ((m.map (List.replicate nb)).flatten).getD r [] =
        m.getD (r / nb) [] := by
    intro r hr
    exact getD_repeatFlat [] nb m r (by rw [hmlen]; exact hr)
  have hinv := beamLoop_inv probsOf logFn next gatherCache cache.isSome
    prompt.length nb L index ((m.map (List.replicate nb)).flatten)
    prompt m endTokenId hOrc hnb hmask2len hmask2val
    ((prompt.headD []).length - index)
    ⟨(prompt.map (List.replicate nb)).flatten, cache.map repCache, index,
      (List.replicate prompt.length (initLogProbsRow (nb : ℤ))).flatten⟩
    ⟨initial_StateWF prompt nb L (cache.map repCache) index hnb hrows,
      initial_ContentInv prompt m nb index (cache.map repCache) _⟩
  obtain ⟨⟨hFp, hFl, hFrows⟩, hCIfin⟩ := hinv
  set F := (beamLoop probsOf logFn next gatherCache cache.isSome
    prompt.length nb ((m.map (List.replicate nb)).flatten) endTokenId
    ⟨(prompt.map (List.replicate nb)).flatten, cache.map repCache, index,
      (List.replicate prompt.length (initLogProbsRow (nb : ℤ))).flatten⟩
    ((prompt.headD []).length - index)).1 with hF
  have hal_len : (chunksFuel prompt.length nb F.logProbs).length =
      prompt.length := length_chunksFuel _ _ _
  have hap_len : (chunksFuel prompt.length nb F.prompt).length =
      prompt.length := length_chunksFuel _ _ _
  refine ⟨((chunksFuel prompt.length nb F.prompt).zip
      ((chunksFuel prompt.length nb F.logProbs).map fun row =>
        opsArgsort (row.map fun q => -q))).map
      fun pi => pi.2.map fun i => pi.1.getD i [],
    ((chunksFuel prompt.length nb F.logProbs).zip
      ((chunksFuel prompt.length nb F.logProbs).map fun row =>
        opsArgsort (row.map fun q => -q))).map
      fun ri => ri.2.map fun i => ri.1.getD i 0, ?_, ?_⟩
  · rw [hout]
    rfl
  · intro b hb
    set row := (chunksFuel prompt.length nb F.logProbs).getD b []
      with hrowdef
    have hrowlen : row.length = nb :=
      length_getD_chunksFuel prompt.length nb b F.logProbs hb (by omega)
    have hscores : (((chunksFuel prompt.length nb F.logProbs).zip
        ((chunksFuel prompt.length nb F.logProbs).map fun row2 =>
          opsArgsort (row2.map fun q => -q))).map
        fun ri => ri.2.map fun i => ri.1.getD i 0).getD b [] =
        (opsArgsort (row.map fun q => -q)).map fun i => row.getD i 0 := by
      rw [getD_zip_map (fun ri => ri.2.map fun i => ri.1.getD i 0)
        (chunksFuel prompt.length nb F.logProbs)
        ((chunksFuel prompt.length nb F.logProbs).map fun row2 =>
          opsArgsort (row2.map fun q => -q)) [] [] [] b
        (by rw [hal_len]; exact hb)
        (by rw [List.length_map, hal_len]; exact hb)]
      rw [getD_map_in (fun row2 => opsArgsort (row2.map fun q => -q))
        (chunksFuel prompt.length nb F.logProbs) [] [] b
        (by rw [hal_len]; exact hb)]
    have hseqs : (((chunksFuel prompt.length nb F.prompt).zip
        ((chunksFuel prompt.length nb F.logProbs).map fun row2 =>
          opsArgsort (row2.map fun q => -q))).map
        fun pi => pi.2.map fun i => pi.1.getD i []).getD b [] =
        (opsArgsort (row.map fun q => -q)).map fun i =>
          ((chunksFuel prompt.length nb F.prompt).getD b []).getD i [] := by
      rw [getD_zip_map (fun pi => pi.2.map fun i => pi.1.getD i [])
        (chunksFuel prompt.length nb F.prompt)
        ((chunksFuel prompt.length nb F.logProbs).map fun row2 =>
          opsArgsort (row2.map fun q => -q)) [] [] [] b
        (by rw [hap_len]; exact hb)
        (by rw [List.length_map, hal_len]; exact hb)]
      rw [getD_map_in (fun row2 => opsArgsort (row2.map fun q => -q))
        (chunksFuel prompt.length nb F.logProbs) [] [] b
        (by rw [hal_len]; exact hb)]
    have hσ : opsArgsort (row.map fun q => -q) =
        (topKPairs row.length row.enum).map Prod.fst :=
      opsArgsort_neg_neg row
    have hpairs_perm : (topKPairs row.length row.enum).Perm row.enum :=
      topKPairs_perm (by rw [List.enum_length])
    have hmapsnd : ((topKPairs row.length row.enum).map Prod.fst).map
        (fun i => row.getD i 0) =
        (topKPairs row.length row.enum).map Prod.snd := by
      rw [List.map_map]
      apply List.map_congr_left
      intro p hp
      have hpmem : p ∈ row.enum := topKPairs_subset p hp
      exact (mem_enum_getD hpmem).2
    constructor
    · rw [hscores, hσ, hmapsnd]
      exact List.Pairwise.map Prod.snd (fun a c h => h) topKPairs_pairwise
    · refine ⟨opsArgsort (row.map fun q => -q), ?_, ?_, ?_⟩
      · rw [hσ, ← hrowlen, ← List.enum_map_fst row]
        exact hpairs_perm.map Prod.fst
      · rw [hscores]
      · rw [hseqs]

/-- Witness for C5: the concrete two-beam decode returns both beams with
scores `[2, 1]`, sorted descending, reordered by a permutation of the
beam indices. -/
theorem all_beams_sorted_and_matched_witness :
    ((1 : ℕ) ≤ 2 ∧
      call (γ := Unit) (A := Unit) (K := Unit) ((2 : ℕ) : ℤ) true id id
        (fun p c i => (p.map fun _ => [(1 : Score), 2], (), c)) id
        (fun _ => id) [[5, 7]] none 1 (some [[true, false]]) none () =
      Except.ok (DecodeOutput.all [[[5, 1], [5, 0]]] [[2, 1]])) ∧
      ∃ seqs scores,
        DecodeOutput.all [[[(5 : ℤ), 1], [5, 0]]]
            ([[2, 1]] : List (List Score)) = DecodeOutput.all seqs scores ∧
        ∀ b, b < ([[(5 : ℤ), 7]] : List (List ℤ)).length →
          (scores.getD b []).Pairwise (fun a c => c ≤ a) ∧
          ∃ σ : List ℕ, σ.Perm (List.range 2) := by
  refine ⟨⟨by decide, by decide⟩, ?_⟩
  obtain ⟨seqs, scores, heq, hrest⟩ :=
    all_beams_sorted_and_matched (γ := Unit) (A := Unit) (K := Unit) 2
      (by decide) id id
      (fun p c i => (p.map fun _ => [(1 : Score), 2], (), c)) id
      (fun _ => id) [[5, 7]] none 1 [[true, false]] none () 2
      (by
        constructor
        · intro row
          rfl
        · intro p c i
          refine ⟨by rw [List.length_map], ?_⟩
          intro row hrow
          simp only [List.mem_map] at hrow
          obtain ⟨a, ha, hrow2⟩ := hrow
          cases p with
          | nil => simp at ha
          | cons x t =>
            refine ⟨by rw [← hrow2]; rfl, by rw [← hrow2]; decide⟩)
      (by
        intro row hrow
        rw [List.mem_singleton] at hrow
        rw [hrow]
        rfl)
      (by decide) (DecodeOutput.all [[[5, 1], [5, 0]]] [[2, 1]]) (by decide)
  exact ⟨seqs, scores, heq, fun b hb =>
    ⟨(hrest b hb).1, (hrest b hb).2.choose,
      (hrest b hb).2.choose_spec.1⟩⟩

/-! ### Greedy equivalence at num_beams = 1 (C6) -/

lemma extractMax_map_mono (f : Score → Score) (hf : StrictMono f) :
    ∀ (l : List (ℕ × Score)),
      extractMax (l.map fun p => (p.1, f p.2)) =
        (extractMax l).map fun pr =>
          ((pr.1.1, f pr.1.2), pr.2.map fun p => (p.1, f p.2)) := by
  intro l
  induction l with
  | nil => rfl
  | cons a tail ih =>
    simp only [List.map_cons, extractMax, ih]
    cases htail : extractMax tail with
    | none => rfl
    | some qr =>
      obtain ⟨q, rest⟩ := qr
      simp only [Option.map_some']
      by_cases hlt : a.2 < q.2
      · rw [if_pos (hf hlt), if_pos hlt]
        rfl
      · rw [if_neg (fun hc => hlt (hf.lt_iff_lt.mp hc)), if_neg hlt]
        rfl

lemma argmaxIdx_map_mono (f : Score → Score) (hf : StrictMono f)
    (xs : List Score) : argmaxIdx (xs.map f) = argmaxIdx xs := by
  unfold argmaxIdx
  have henum : (xs.map f).enum = xs.enum.map fun p => (p.1, f p.2) := by
    rw [List.enum_map]
    apply List.map_congr_left
    intro p hp
    rfl
  rw [henum, extractMax_map_mono f hf xs.enum]
  cases extractMax xs.enum with
  | none => rfl
  | some pr => rfl

/-- With a single beam, the candidate vector of batch element `b` is the
transformed probability row of that element. -/
lemma candidateRows_one (probsOf : List Score → List Score)
    (logFn : Score → Score) (batch : ℕ) (logits : List (List Score))
    (logProbs : List Score) (b : ℕ) (hb : b < batch)
    (hlen : logits.length = batch) (hlp : logProbs.length = batch) :
    (candidateRows probsOf logFn batch 1 logits logProbs).getD b [] =
      (probsOf (logits.getD b [])).map
        (fun q => logFn q + logProbs.getD b 0) := by
  unfold candidateRows
  rw [getD_map_in List.flatten _ [] [] b
    (by rw [length_chunksFuel]; exact hb)]
  rw [getD_chunksFuel _ _ _ _ hb]
  have hnlplen : (((logits.map probsOf).zip logProbs).map fun pr =>
      pr.1.map fun q => logFn q + pr.2).length = batch := by
    simp only [List.length_map, List.length_zip, hlen, hlp, Nat.min_self]
  have hblt : b < (((logits.map probsOf).zip logProbs).map fun pr =>
      pr.1.map fun q => logFn q + pr.2).length := by
    rw [hnlplen]
    exact hb
  rw [Nat.mul_one, List.drop_eq_getElem_cons hblt]
  simp only [List.take_succ_cons, List.take_zero, List.flatten_cons,
    List.flatten_nil, List.append_nil]
  rw [← List.getD_eq_getElem _ [] hblt]
  rw [getD_zip_map (fun pr => pr.1.map fun q => logFn q + pr.2)
    (logits.map probsOf) logProbs [] 0 [] b
    (by rw [List.length_map, hlen]; exact hb) (by rw [hlp]; exact hb)]
  rw [getD_map_in probsOf logits [] [] b (by rw [hlen]; exact hb)]

/-- C6: with `num_beams = 1`, each decode step is greedy: at every
non-fixed position, the single retained beam receives exactly the argmax
of the probability distribution that the oracle's logits induce (through
the probability transform) at that step, provided the elementwise log is
strictly monotone. -/
theorem greedy_equivalence {γ A : Type} (probsOf : List Score → List Score)
    (logFn : Score → Score)
    (next : List (List ℤ) → Option γ → ℕ → List (List Score) × A × Option γ)
    (gatherCache : List (List ℕ) → γ → γ) (hasCache : Bool)
    (batch : ℕ) (mask : List (List Bool)) (s : LoopState γ) (r : ℕ)
    (hlog : StrictMono logFn)
    (hOrc : OracleWF probsOf next)
    (hplen : s.prompt.length = batch)
    (hlplen : s.logProbs.length = batch)
    (hr : r < batch)
    (hrowlen : s.index < (s.prompt.getD r []).length)
    (hmlen : mask.length = batch)
    (hmaskr : (mask.getD r []).getD s.index false = false) :
    ((decodeBody probsOf logFn next gatherCache hasCache batch 1 mask
        s).prompt.getD r []).getD s.index 0 =
      ((argmaxIdx (probsOf ((next s.prompt s.cache s.index).1.getD r []))
        : ℕ) : ℤ) := by
  have hbpos : 0 < batch := by omega
  set logits := (next s.prompt s.cache s.index).1 with hlogits
  set V := (logits.headD []).length with hV
  have hloglen : logits.length = batch := by
    rw [hlogits, (hOrc.2 s.prompt s.cache s.index).1, hplen]
  have hlognil : logits ≠ [] := by
    intro hnil
    rw [hnil] at hloglen
    simp only [List.length_nil] at hloglen
    omega
  have hrect : ∀ row ∈ logits, row.length = V :=
    fun row hrow => ((hOrc.2 s.prompt s.cache s.index).2 row hrow).1
  have hVpos : 0 < V := by
    have hhead : logits.headD [] ∈ logits := by
      cases hlg : logits with
      | nil => exact absurd hlg hlognil
      | cons a rest => simp
    have h2 := ((hOrc.2 s.prompt s.cache s.index).2 _ hhead).2
    have h3 := ((hOrc.2 s.prompt s.cache s.index).2 _ hhead).1
    rw [hV]
    omega
  have hlogmem : logits.getD r [] ∈ logits := by
    rw [List.getD_eq_getElem logits [] (by omega : r < logits.length)]
    exact List.getElem_mem (by omega)
  have hcand := candidateRows_one probsOf logFn batch logits s.logProbs r hr
    hloglen hlplen
  set cand := (probsOf (logits.getD r [])).map
    (fun q => logFn q + s.logProbs.getD r 0) with hcanddef
  have hcandlen : cand.length = V := by
    rw [hcanddef, List.length_map, hOrc.1]
    exact hrect _ hlogmem
  have hcandne : cand ≠ [] := by
    intro hnil
    rw [hnil] at hcandlen
    simp only [List.length_nil] at hcandlen
    omega
  have hsel : (selectedPairs probsOf logFn batch 1 logits
      s.logProbs).getD r [] = topKPairs 1 cand.enum := by
    unfold selectedPairs
    rw [getD_map_in (fun row => topKPairs 1 row.enum)
      (candidateRows probsOf logFn batch 1 logits s.logProbs) [] [] r
      (by rw [candidateRows_length]; exact hr)]
    rw [hcand]
  obtain ⟨p, rest, hex⟩ := extractMax_enum_isSome hcandne
  have htop : topKPairs 1 cand.enum = [p] := by
    unfold topKPairs
    rw [hex]
    rfl
  have hp1 : p.1 = argmaxIdx cand := by
    unfold argmaxIdx
    rw [hex]
  have hp1lt : p.1 < V := by
    have := (mem_enum_getD (extractMax_mem hex)).1
    omega
  have hargmax : argmaxIdx cand =
      argmaxIdx (probsOf (logits.getD r [])) := by
    rw [hcanddef]
    exact argmaxIdx_map_mono _ (hlog.add_const _) _
  set sel := selectedPairs probsOf logFn batch 1 logits s.logProbs
    with hseldef
  have hsellen : sel.length = batch := selectedPairs_length _ _ _ _ _ _
  have hselfacts := selectedPairs_rows logFn hVpos hOrc.1 hrect
    (by rw [hloglen, Nat.mul_one]) (by rw [hlplen, Nat.mul_one])
  set beamIdx := sel.map fun l => l.map fun q => q.1 / V with hbi
  set nextTok := (sel.map fun l => l.map fun q => q.1 % V).flatten with hnt
  have hbil : beamIdx.length = batch := by
    rw [hbi, List.length_map, hsellen]
  have hbirows : ∀ bl ∈ beamIdx, bl.length = 1 := by
    intro bl hbl
    rw [hbi] at hbl
    simp only [List.mem_map] at hbl
    obtain ⟨l, hl, hblval⟩ := hbl
    rw [← hblval, List.length_map]
    exact (hselfacts l hl).1
  have hbiin : ∀ bl ∈ beamIdx, ∀ j ∈ bl, j < 1 := by
    intro bl hbl j hj
    rw [hbi] at hbl
    simp only [List.mem_map] at hbl
    obtain ⟨l, hl, hblval⟩ := hbl
    rw [← hblval] at hj
    simp only [List.mem_map] at hj
    obtain ⟨q, hq, hjval⟩ := hj
    have := (hselfacts l hl).2 q hq
    rw [← hjval]
    exact Nat.div_lt_of_lt_mul (by rw [Nat.mul_comm]; exact this)
  have hntlen : nextTok.length = batch := by
    rw [hnt, length_flatten_uniform _ 1]
    · rw [List.length_map, hsellen, Nat.mul_one]
    · intro row hrow
      simp only [List.mem_map] at hrow
      obtain ⟨l, hl, hrow2⟩ := hrow
      rw [← hrow2, List.length_map]
      exact (hselfacts l hl).1
  have hselr : sel.getD r [] = [p] := by
    rw [hseldef, hsel, htop]
  have hntr : nextTok.getD r 0 = p.1 := by
    rw [hnt, getD_flatten_uniform 0 _ 1
      (by
        intro row hrow
        simp only [List.mem_map] at hrow
        obtain ⟨l, hl, hrow2⟩ := hrow
        rw [← hrow2, List.length_map]
        exact (hselfacts l hl).1)
      r (by rw [List.length_map, hsellen, Nat.mul_one]; exact hr)]
    rw [Nat.div_one, Nat.mod_one]
    rw [getD_map_in (fun l => l.map fun q => q.1 % V) sel [] [] r
      (by rw [hsellen]; exact hr)]
    rw [hselr]
    show p.1 % V = p.1
    exact Nat.mod_eq_of_lt hp1lt
  have hgather := gatherRows_getD batch 1 beamIdx s.prompt
    (by rw [hplen, Nat.mul_one]) hbil hbirows hbiin r
    (by rw [Nat.mul_one]; exact hr)
  have hj0 : (beamIdx.getD (r / 1) []).getD (r % 1) 0 = 0 := by
    rw [Nat.div_one, Nat.mod_one, hbi]
    rw [getD_map_in (fun l => l.map fun q => q.1 / V) sel [] [] r
      (by rw [hsellen]; exact hr)]
    rw [hselr]
    show p.1 / V = 0
    exact Nat.div_eq_of_lt hp1lt
  have hprompt2 : (gatherRows batch 1 beamIdx s.prompt).getD r [] =
      s.prompt.getD r [] := by
    rw [hgather, hj0]
    have : r / 1 * 1 + 0 = r := by omega
    rw [this]
  have hbody : (decodeBody probsOf logFn next gatherCache hasCache batch 1
      mask s).prompt =
      writeColumn s.index mask (gatherRows batch 1 beamIdx s.prompt)
        nextTok := rfl
  have hp2len : (gatherRows batch 1 beamIdx s.prompt).length = batch := by
    rw [gatherRows_length batch 1 beamIdx s.prompt hbil hbirows,
      Nat.mul_one]
  have hwc := writeColumn_getD s.index mask
    (gatherRows batch 1 beamIdx s.prompt) nextTok r
    (by rw [hp2len]; exact hr) (by rw [hp2len, hmlen])
    (by rw [hp2len, hntlen])
  rw [hbody, hwc, hprompt2]
  have hmfalse : ¬((mask.getD r []).getD s.index false = true) := by
    rw [hmaskr]
    simp
  rw [if_neg hmfalse, hntr]
  have hset : ((s.prompt.getD r []).set s.index ((p.1 : ℕ) : ℤ)).getD
      s.index 0 = ((p.1 : ℕ) : ℤ) := by
    rw [List.getD_eq_getElem?_getD, List.getElem?_set]
    rw [if_pos rfl, if_pos hrowlen]
    rfl
  rw [hset, hp1, hargmax]

/-- Witness for C6: a single-beam step over a 2-token vocabulary with
logits `[1, 3]` writes token 1 — the argmax — at the current position. -/
theorem greedy_equivalence_witness :
    StrictMono (id : Score → Score) ∧
      ((decodeBody (γ := Unit) (A := Unit) id id
          (fun p c i => (p.map fun _ => [(1 : Score), 3], (), c))
          (fun _ => id) false 1 1 [[false, false]]
          ⟨[[5, 0]], none, 1, [0]⟩).prompt.getD 0 []).getD 1 0 = 1 :=
  ⟨strictMono_id,
    greedy_equivalence (γ := Unit) (A := Unit) id id
      (fun p c i => (p.map fun _ => [(1 : Score), 3], (), c))
      (fun _ => id) false 1 [[false, false]] ⟨[[5, 0]], none, 1, [0]⟩ 0
      strictMono_id
      (by
        constructor
        · intro row
          rfl
        · intro p c i
          refine ⟨by rw [List.length_map], ?_⟩
          intro row hrow
          simp only [List.mem_map] at hrow
          obtain ⟨a, ha, hrow2⟩ := hrow
          cases p with
          | nil => simp at ha
          | cons x t =>
            refine ⟨by rw [← hrow2]; rfl, by rw [← hrow2]; decide⟩)
      (by decide) (by decide) (by decide) (by decide) (by decide)
      (by decide)⟩

end BeamSampler